import Mathlib

/-!
Verification development for the Undo/Redo Command Engine
(`commandManager.ts`, class `UndoRedoManager`).

The engine observes mutations of a scene graph (a mutable collection of
cells), records each mutation as a `Command`, groups commands into
`BatchCommand`s on two bounded history stacks, and replays them on
`undo` / `redo` under a re-entrancy guard (`isExecuting`).

Modelling conventions:
* JS arrays used as stacks (`push`/`pop` at the tail, `shift` at the front)
  are modelled as Lean lists with the MOST RECENT element at the HEAD:
  `push` is `cons`, `pop` takes the head, `shift` (evicting the oldest
  entry) is `dropLast`.
* Attribute values are opaque JSON payloads; the engine never inspects
  them, so a small value type with decidable equality suffices
  (deep JS equality is `DecidableEq`).
* The scene graph itself is an external collaborator (JointJS); its
  primitives (`addCell`, `getCell`, `cell.remove`, `cell.set`,
  `cell.toJSON`) are modelled from the spec's interface section:
  a list of cells with unique ids, added at the tail, looked up by id.
* Graph events fire synchronously: a mutation of the graph immediately
  runs the listeners installed by `attachListeners`.  `mutateGraph`
  below is that composition: perform the raw graph operation, then run
  the matching listener (`onAdd` / `onRemove` / `onChange`), which
  records a command unless `isExecuting` is set.
-/

namespace CommandManager

/-- Opaque JSON attribute value.  The engine treats attribute payloads as
schema-less data compared by deep equality, so a small closed value type
with decidable equality is a faithful image. -/
inductive JVal where
  | str : String → JVal
  | num : Int → JVal
  | bool : Bool → JVal
  | null : JVal
deriving DecidableEq, Repr

/-- A schema-less attribute bag: ordered key/value pairs, first entry wins
on lookup (JS object semantics; real JS objects have unique keys, captured
by the well-formedness predicates below). -/
abbrev AttrMap := List (String × JVal)

/-- Modelled from the spec: one visual entity of the scene graph, with a
stable unique `id`, a `kind` discriminator and an open attribute bag.
This is also the full serialized form (`cell.toJSON()`). -/
structure Cell where
  id : String
  kind : String
  attrs : AttrMap
deriving DecidableEq, Repr

/-- Modelled from the spec: the scene graph is the mutable collection of
cells; newly added cells go at the tail of the collection. -/
abbrev SceneGraph := List Cell

/-- Lookup of an attribute key (first matching entry). -/
def lookupAttr (a : AttrMap) (k : String) : Option JVal :=
  (a.find? (fun kv => kv.fst == k)).map (·.snd)

/-- Set one attribute key: replace in place if the key exists, append
otherwise (JS object assignment semantics). -/
def setAttr (a : AttrMap) (k : String) (v : JVal) : AttrMap :=
  if (a.find? (fun kv => kv.fst == k)).isSome then
    a.map (fun kv => if kv.fst == k then (k, v) else kv)
  else
    a ++ [(k, v)]

/-- Modelled from the spec: `cell.set(partialAttributeMap)` — apply every
binding of the partial map to the attribute bag, left to right. -/
def cellSet (a : AttrMap) (us : AttrMap) : AttrMap :=
  us.foldl (fun acc kv => setAttr acc kv.fst kv.snd) a

/-- Modelled from the spec: `graph.getCell(id)` — the first cell with the
given id, if any. -/
def getCell (g : SceneGraph) (id : String) : Option Cell :=
  g.find? (fun c => c.id == id)

/-- The key/value pairs of an update that actually change the bag
(`cell.changed` after a `set`): bindings whose value differs from the
current one, including keys that were absent. -/
def changedPairs (a : AttrMap) (us : AttrMap) : AttrMap :=
  us.filter (fun kv => !(lookupAttr a kv.fst == some kv.snd))

/-- The previous values of the changed keys, as captured by the `change`
listener (`previousState[key] = clone(prevAttrs[key])`): every changed
key paired with its value in the pre-change bag `a`.  The `getD` default
is never used on a recorded command — when a changed key is absent from
`a`, the source's clone of `undefined` throws and nothing is recorded. -/
def prevOf (a : AttrMap) (l : AttrMap) : AttrMap :=
  l.map (fun kv => (kv.fst, (lookupAttr a kv.fst).getD JVal.null))

/-- A raw scene-graph operation: the engine's egress interface to the
graph (`insert(serializedCell)`, `removeById(id)`,
`setAttributes(id, partialAttributeMap)`), which is also the shape of a
user-originated mutation. -/
inductive GraphOp where
  | insert : Cell → GraphOp
  | removeById : String → GraphOp
  | setAttrs : String → AttrMap → GraphOp
deriving DecidableEq, Repr

/-- Modelled from the spec: effect of one raw operation on the graph.
`insert` of an already-present id is ignored by the collection;
`removeById` drops the cell; `setAttrs` rewrites the target cell's bag
(no-op when the target is missing or nothing actually changes). -/
def applyOpG (g : SceneGraph) : GraphOp → SceneGraph
  | .insert c => if (getCell g c.id).isSome then g else g ++ [c]
  | .removeById id =>
      if (getCell g id).isSome then g.filter (fun c => !(c.id == id)) else g
  | .setAttrs id us =>
      match getCell g id with
      | none => g
      | some c =>
          if (changedPairs c.attrs us).isEmpty then g
          else g.map (fun d => if d.id == id then ⟨d.id, d.kind, cellSet d.attrs us⟩ else d)

/-- Types of changes the engine tracks (`CommandType`). -/
inductive CommandType where
  | add | remove | change
deriving DecidableEq, Repr

/-- A single recorded change (`Command` in `commandManager.ts`):
`previousState`/`newState` are the per-key deltas of a `change`,
`cellJSON` the full serialized cell of an `add`/`remove`. -/
structure Command where
  type : CommandType
  cellId : String
  previousState : Option AttrMap
  newState : Option AttrMap
  cellJSON : Option Cell
deriving DecidableEq, Repr

/-- A batch of commands that undo/redo together (`BatchCommand`). -/
structure BatchCommand where
  commands : List Command
  label : Option String
deriving DecidableEq, Repr

/-- The full state of an `UndoRedoManager` instance together with its
scene graph.  `notifyLog` records, newest first, one entry per `notify()`
call, capturing the stacks as they are at the moment the subscribers run
(the source's `notify` calls every subscriber once). -/
structure MState where
  undoStack : List BatchCommand := []
  redoStack : List BatchCommand := []
  graph : SceneGraph
  isExecuting : Bool := false
  currentBatch : Option (List Command) := none
  batchDepth : Nat := 0
  pendingLabel : Option String := none
  notifyLog : List (List BatchCommand × List BatchCommand) := []
deriving DecidableEq, Repr

/-- `maxStackSize = 100` — the configured cap on history depth. -/
def maxStackSize : Nat := 100

/-- The state of a freshly constructed manager attached to graph `g`. -/
def initState (g : SceneGraph) : MState := { graph := g }

/-- `notify()`: run every subscriber once; modelled by logging the stacks
visible to the subscribers. -/
def notifyS (st : MState) : MState :=
  { st with notifyLog := (st.undoStack, st.redoStack) :: st.notifyLog }

/-- Push a batch and trim the stack if it exceeds `maxStackSize`
(`this.undoStack.push(b); if (length > maxStackSize) shift()`): with the
newest entry at the head, `push` is `cons` and `shift` is `dropLast`. -/
def trimPush (b : BatchCommand) (stack : List BatchCommand) : List BatchCommand :=
  let s := b :: stack
  if maxStackSize < s.length then s.dropLast else s

/-- `pushCommand`: append to the open batch if one exists, otherwise push
a singleton batch, trim, clear the redo stack, and notify. -/
def pushCommand (st : MState) (cmd : Command) : MState :=
  match st.currentBatch with
  | some batch => { st with currentBatch := some (batch ++ [cmd]) }
  | none =>
      notifyS { st with
        undoStack := trimPush ⟨[cmd], none⟩ st.undoStack,
        redoStack := [] }

/-- The command the listeners would record for a raw operation performed
on graph `g`, or `none` when no command is recorded: an ignored duplicate
`insert` or a `removeById`/`setAttrs` of a missing cell fires no event; a
`setAttrs` that changes nothing fires no `change` event; and a `setAttrs`
that adds a brand-new key aborts the handler before `pushCommand` (the
source clones `prevAttrs[key]`, which is undefined for a new key, and
`JSON.parse` of it throws), so nothing is recorded there either. -/
def commandOf (g : SceneGraph) : GraphOp → Option Command
  | .insert c =>
      if (getCell g c.id).isSome then none
      else some ⟨.add, c.id, none, none, some c⟩
  | .removeById id =>
      match getCell g id with
      | some c => some ⟨.remove, id, none, none, some c⟩
      | none => none
  | .setAttrs id us =>
      match getCell g id with
      | none => none
      | some c =>
          let changed := changedPairs c.attrs us
          if changed.isEmpty then none
          else if changed.all (fun kv => (lookupAttr c.attrs kv.fst).isSome) then
            some ⟨.change, id, some (prevOf c.attrs changed), some changed, none⟩
          else none

/-- Whether performing `op` on state `st` records a command: the listeners
are suppressed while `isExecuting` is set. -/
def recordsOp (st : MState) (op : GraphOp) : Bool :=
  !st.isExecuting && (commandOf st.graph op).isSome

/-- Perform a raw scene-graph operation and run the attached listeners
(`attachListeners`' `onAdd`/`onRemove`/`onChange`): the graph mutates
first; the listener then records a command through `pushCommand` unless
`isExecuting` is set. -/
def mutateGraph (st : MState) (op : GraphOp) : MState :=
  let st' := { st with graph := applyOpG st.graph op }
  if st.isExecuting then st'
  else
    match commandOf st.graph op with
    | some cmd => pushCommand st' cmd
    | none => st'

/-- `startBatch(label?)`: bump the nesting depth; at the 0 → 1 transition
open a fresh buffer and remember the label. -/
def startBatch (st : MState) (label : Option String) : MState :=
  let st := { st with batchDepth := st.batchDepth + 1 }
  let st := if st.batchDepth == 1 then { st with currentBatch := some [] } else st
  match label with
  | some l => if st.batchDepth == 1 then { st with pendingLabel := some l } else st
  | none => st

/-- `stopBatch()`: decrement the depth (`Math.max(0, d - 1)`); at the
1 → 0 transition push the buffer as one batch if non-empty (trimming and
clearing the redo stack), reset the buffer and label, and notify. -/
def stopBatch (st : MState) : MState :=
  let st := { st with batchDepth := st.batchDepth - 1 }
  if st.batchDepth == 0 then
    match st.currentBatch with
    | none => st
    | some cmds =>
        let st :=
          if cmds.length > 0 then
            { st with
              undoStack := trimPush ⟨cmds, st.pendingLabel⟩ st.undoStack,
              redoStack := [] }
          else st
        notifyS { st with currentBatch := none, pendingLabel := none }
  else st

/-- `canUndo()`. -/
def canUndo (st : MState) : Bool := !st.undoStack.isEmpty

/-- `canRedo()`. -/
def canRedo (st : MState) : Bool := !st.redoStack.isEmpty

/-- Reverse a single command, graph effect only (`reverseCommand`):
undo an `add` by removing the cell if it is still there, undo a `remove`
by re-inserting the serialized cell, undo a `change` by setting the
previous attribute values if the cell is still there. -/
def reverseApplyG (cmd : Command) (g : SceneGraph) : SceneGraph :=
  match cmd.type with
  | .add => applyOpG g (.removeById cmd.cellId)
  | .remove =>
      match cmd.cellJSON with
      | some cj => applyOpG g (.insert cj)
      | none => g
  | .change =>
      match getCell g cmd.cellId, cmd.previousState with
      | some _, some prev => applyOpG g (.setAttrs cmd.cellId prev)
      | _, _ => g

/-- Apply a single command forward, graph effect only (`applyCommand`). -/
def applyCommandG (cmd : Command) (g : SceneGraph) : SceneGraph :=
  match cmd.type with
  | .add =>
      match cmd.cellJSON with
      | some cj => applyOpG g (.insert cj)
      | none => g
  | .remove => applyOpG g (.removeById cmd.cellId)
  | .change =>
      match getCell g cmd.cellId, cmd.newState with
      | some _, some ns => applyOpG g (.setAttrs cmd.cellId ns)
      | _, _ => g

/-- `reverseCommand` as executed inside `undo()`: each graph primitive it
calls fires the corresponding graph event, so it is routed through
`mutateGraph` (the listeners are suppressed because `undo` sets
`isExecuting` first). -/
def reverseCommandM (cmd : Command) (st : MState) : MState :=
  match cmd.type with
  | .add =>
      if (getCell st.graph cmd.cellId).isSome then
        mutateGraph st (.removeById cmd.cellId)
      else st
  | .remove =>
      match cmd.cellJSON with
      | some cj => mutateGraph st (.insert cj)
      | none => st
  | .change =>
      match getCell st.graph cmd.cellId, cmd.previousState with
      | some _, some prev => mutateGraph st (.setAttrs cmd.cellId prev)
      | _, _ => st

/-- `applyCommand` as executed inside `redo()`, routed through
`mutateGraph` like `reverseCommandM`. -/
def applyCommandM (cmd : Command) (st : MState) : MState :=
  match cmd.type with
  | .add =>
      match cmd.cellJSON with
      | some cj => mutateGraph st (.insert cj)
      | none => st
  | .remove =>
      if (getCell st.graph cmd.cellId).isSome then
        mutateGraph st (.removeById cmd.cellId)
      else st
  | .change =>
      match getCell st.graph cmd.cellId, cmd.newState with
      | some _, some ns => mutateGraph st (.setAttrs cmd.cellId ns)
      | _, _ => st

/-- `undo()`: pop the most recent batch (no-op when the stack is empty),
set `isExecuting`, reverse the batch's commands in reverse insertion order
(the source iterates `i = length - 1` down to `0`, which is `List.foldr`),
push the batch onto the redo stack, clear the flag, notify. -/
def undo (st : MState) : MState :=
  match st.undoStack with
  | [] => st
  | b :: rest =>
      let s1 := { st with undoStack := rest, isExecuting := true }
      let s2 := b.commands.foldr (fun c s => reverseCommandM c s) s1
      let s3 := { s2 with redoStack := b :: s2.redoStack }
      notifyS { s3 with isExecuting := false }

/-- `redo()`: pop the most recent undone batch (no-op when the stack is
empty), set `isExecuting`, re-apply its commands in forward insertion
order (`for (const cmd of batch.commands)`, which is `List.foldl`), push
the batch back onto the undo stack (without trimming and without touching
the rest of the redo stack), clear the flag, notify. -/
def redo (st : MState) : MState :=
  match st.redoStack with
  | [] => st
  | b :: rest =>
      let s1 := { st with redoStack := rest, isExecuting := true }
      let s2 := b.commands.foldl (fun s c => applyCommandM c s) s1
      let s3 := { s2 with undoStack := b :: s2.undoStack }
      notifyS { s3 with isExecuting := false }

/-- `clear()`: drop all history and notify. -/
def clear (st : MState) : MState :=
  notifyS { st with undoStack := [], redoStack := [] }

/-- The public operations of the engine: record a user mutation of the
graph, open/close a batch, undo, redo, clear. -/
inductive PublicOp where
  | mutate : GraphOp → PublicOp
  | startB : Option String → PublicOp
  | stopB : PublicOp
  | doUndo : PublicOp
  | doRedo : PublicOp
  | doClear : PublicOp
deriving DecidableEq, Repr

/-- Run one public operation. -/
def runOp (st : MState) : PublicOp → MState
  | .mutate op => mutateGraph st op
  | .startB l => startBatch st l
  | .stopB => stopBatch st
  | .doUndo => undo st
  | .doRedo => redo st
  | .doClear => clear st

/-- Run a list of public operations, left to right. -/
def runOps (st : MState) (ops : List PublicOp) : MState :=
  ops.foldl runOp st

/-- Iterate `undo` n times. -/
def undoN : Nat → MState → MState
  | 0, st => st
  | n + 1, st => undoN n (undo st)

/-- Every operation of the list fires a recording listener at its point of
execution (so each one pushes or buffers exactly one command). -/
def allRecordedG (g : SceneGraph) : List GraphOp → Bool
  | [] => true
  | op :: rest => (commandOf g op).isSome && allRecordedG (applyOpG g op) rest

/-- Apply a list of raw operations to the graph. -/
def applyOps (g : SceneGraph) : List GraphOp → SceneGraph
  | [] => g
  | op :: rest => applyOps (applyOpG g op) rest

/-- The commands recorded along a run of raw operations (skipping the
unrecorded ones). -/
def commandsOf (g : SceneGraph) : List GraphOp → List Command
  | [] => []
  | op :: rest =>
      match commandOf g op with
      | some c => c :: commandsOf (applyOpG g op) rest
      | none => commandsOf (applyOpG g op) rest

/-- Push a list of batches, oldest first, trimming at each step. -/
def pushMany (stack : List BatchCommand) (bs : List BatchCommand) : List BatchCommand :=
  bs.foldl (fun s b => trimPush b s) stack

/-- Modelled from the spec: equality of serialized scene-graph states —
the same cells, bit-for-bit equal (id, kind and attribute list), with the
collection order normalized away (the graph keys cells by unique id). -/
def sameSerializedState (g h : SceneGraph) : Bool :=
  g.all (fun c => getCell h c.id == some c) && h.all (fun c => getCell g c.id == some c)

/-! ### Suppression of the listeners during replay -/

theorem mutateGraph_of_isExecuting (st : MState) (op : GraphOp)
    (h : st.isExecuting = true) :
    mutateGraph st op = { st with graph := applyOpG st.graph op } := by
  simp [mutateGraph, h]

theorem reverseCommandM_of_isExecuting (cmd : Command) (st : MState)
    (h : st.isExecuting = true) :
    reverseCommandM cmd st = { st with graph := reverseApplyG cmd st.graph } := by
  rcases cmd with ⟨ty, cid, prev, new, cj⟩
  cases ty with
  | add =>
      simp only [reverseCommandM, reverseApplyG]
      rcases hg : (getCell st.graph cid).isSome with _ | _
      · simp [applyOpG, hg]
      · simp [mutateGraph_of_isExecuting _ _ h]
  | remove =>
      cases cj with
      | none => simp [reverseCommandM, reverseApplyG]
      | some c => simp [reverseCommandM, reverseApplyG, mutateGraph_of_isExecuting _ _ h]
  | change =>
      cases prev with
      | none =>
          cases hg : getCell st.graph cid <;>
            simp [reverseCommandM, reverseApplyG, hg]
      | some p =>
          cases hg : getCell st.graph cid with
          | none => simp [reverseCommandM, reverseApplyG, applyOpG, hg]
          | some c => simp [reverseCommandM, reverseApplyG, hg, mutateGraph_of_isExecuting _ _ h]

theorem applyCommandM_of_isExecuting (cmd : Command) (st : MState)
    (h : st.isExecuting = true) :
    applyCommandM cmd st = { st with graph := applyCommandG cmd st.graph } := by
  rcases cmd with ⟨ty, cid, prev, new, cj⟩
  cases ty with
  | add =>
      cases cj with
      | none => simp [applyCommandM, applyCommandG]
      | some c => simp [applyCommandM, applyCommandG, mutateGraph_of_isExecuting _ _ h]
  | remove =>
      simp only [applyCommandM, applyCommandG]
      rcases hg : (getCell st.graph cid).isSome with _ | _
      · simp [applyOpG, hg]
      · simp [mutateGraph_of_isExecuting _ _ h]
  | change =>
      cases new with
      | none =>
          cases hg : getCell st.graph cid <;>
            simp [applyCommandM, applyCommandG, hg]
      | some p =>
          cases hg : getCell st.graph cid with
          | none => simp [applyCommandM, applyCommandG, applyOpG, hg]
          | some c => simp [applyCommandM, applyCommandG, hg, mutateGraph_of_isExecuting _ _ h]

theorem foldr_reverseCommandM (cmds : List Command) (st : MState)
    (h : st.isExecuting = true) :
    cmds.foldr (fun c s => reverseCommandM c s) st =
      { st with graph := cmds.foldr (fun c g => reverseApplyG c g) st.graph } := by
  induction cmds with
  | nil => simp
  | cons c rest ih =>
      simp only [List.foldr_cons, ih]
      exact reverseCommandM_of_isExecuting c _ h

theorem foldl_applyCommandM (cmds : List Command) (st : MState)
    (h : st.isExecuting = true) :
    cmds.foldl (fun s c => applyCommandM c s) st =
      { st with graph := cmds.foldl (fun g c => applyCommandG c g) st.graph } := by
  induction cmds generalizing st with
  | nil => simp
  | cons c rest ih =>
      simp only [List.foldl_cons]
      rw [applyCommandM_of_isExecuting c st h,
        ih { st with graph := applyCommandG c st.graph } h]

/-! ### Characterization of `undo` and `redo` -/

theorem undo_eq (st : MState) (b : BatchCommand) (rest : List BatchCommand)
    (h : st.undoStack = b :: rest) :
    undo st = { st with
      undoStack := rest,
      redoStack := b :: st.redoStack,
      graph := b.commands.foldr (fun c g => reverseApplyG c g) st.graph,
      isExecuting := false,
      notifyLog := (rest, b :: st.redoStack) :: st.notifyLog } := by
  simp only [undo, h]
  rw [foldr_reverseCommandM _ _ rfl]
  simp [notifyS]

theorem redo_eq (st : MState) (b : BatchCommand) (rest : List BatchCommand)
    (h : st.redoStack = b :: rest) :
    redo st = { st with
      redoStack := rest,
      undoStack := b :: st.undoStack,
      graph := b.commands.foldl (fun g c => applyCommandG c g) st.graph,
      isExecuting := false,
      notifyLog := (b :: st.undoStack, rest) :: st.notifyLog } := by
  simp only [redo, h]
  rw [foldl_applyCommandM _ _ rfl]
  simp [notifyS]

theorem undo_of_empty (st : MState) (h : st.undoStack = []) : undo st = st := by
  simp [undo, h]

theorem redo_of_empty (st : MState) (h : st.redoStack = []) : redo st = st := by
  simp [redo, h]

/-! ### Characterization of the recording path and of batching -/

theorem pushCommand_of_open_batch (st : MState) (cmd : Command) (batch : List Command)
    (h : st.currentBatch = some batch) :
    pushCommand st cmd = { st with currentBatch := some (batch ++ [cmd]) } := by
  simp [pushCommand, h]

theorem pushCommand_of_no_batch (st : MState) (cmd : Command)
    (h : st.currentBatch = none) :
    pushCommand st cmd = { st with
      undoStack := trimPush ⟨[cmd], none⟩ st.undoStack,
      redoStack := [],
      notifyLog := (trimPush ⟨[cmd], none⟩ st.undoStack, []) :: st.notifyLog } := by
  simp [pushCommand, h, notifyS]

theorem mutateGraph_of_recorded (st : MState) (op : GraphOp) (cmd : Command)
    (hf : st.isExecuting = false) (hc : commandOf st.graph op = some cmd) :
    mutateGraph st op = pushCommand { st with graph := applyOpG st.graph op } cmd := by
  simp [mutateGraph, hf, hc]

theorem mutateGraph_of_unrecorded (st : MState) (op : GraphOp)
    (hc : commandOf st.graph op = none) :
    mutateGraph st op = { st with graph := applyOpG st.graph op } := by
  by_cases hf : st.isExecuting <;> simp [mutateGraph, hf, hc]

theorem startBatch_stacks (st : MState) (l : Option String) :
    (startBatch st l).undoStack = st.undoStack ∧
    (startBatch st l).redoStack = st.redoStack ∧
    (startBatch st l).graph = st.graph ∧
    (startBatch st l).notifyLog = st.notifyLog := by
  cases l <;> simp only [startBatch] <;> split <;> simp

theorem stopBatch_of_inner (st : MState) (h : 2 ≤ st.batchDepth) :
    stopBatch st = { st with batchDepth := st.batchDepth - 1 } := by
  have hne : (st.batchDepth - 1 == 0) = false := by
    simp only [beq_eq_false_iff_ne, ne_eq]; omega
  simp [stopBatch, hne]

theorem stopBatch_of_none (st : MState) (h2 : st.currentBatch = none) :
    stopBatch st = { st with batchDepth := st.batchDepth - 1 } := by
  by_cases hd : st.batchDepth - 1 = 0 <;> simp [stopBatch, hd, h2]

theorem stopBatch_of_unmatched (st : MState)
    (h1 : st.batchDepth = 0) (h2 : st.currentBatch = none) :
    stopBatch st = st := by
  cases st with
  | mk u r g f cb bd pl nl =>
      simp only at h1 h2
      subst h1 h2
      rw [stopBatch_of_none _ rfl]
      rfl

theorem stopBatch_of_outer_empty (st : MState)
    (h1 : st.batchDepth - 1 = 0) (h2 : st.currentBatch = some []) :
    stopBatch st = { st with
      batchDepth := 0, currentBatch := none, pendingLabel := none,
      notifyLog := (st.undoStack, st.redoStack) :: st.notifyLog } := by
  simp [stopBatch, h1, h2, notifyS]

theorem stopBatch_of_outer_push (st : MState) (cmds : List Command)
    (h1 : st.batchDepth - 1 = 0) (h2 : st.currentBatch = some cmds) (h3 : cmds ≠ []) :
    stopBatch st = { st with
      batchDepth := 0, currentBatch := none, pendingLabel := none,
      undoStack := trimPush ⟨cmds, st.pendingLabel⟩ st.undoStack,
      redoStack := [],
      notifyLog := (trimPush ⟨cmds, st.pendingLabel⟩ st.undoStack, []) :: st.notifyLog } := by
  have hl : 0 < cmds.length := List.length_pos.mpr h3
  simp [stopBatch, h1, h2, hl, notifyS]

/-! ### Claim theorems: boundary behaviour, replay order, suppression -/

/-- C7: calling `undo()` when `canUndo()` is false leaves the whole state
(stacks, graph, everything) unchanged and raises no error, and
symmetrically `redo()` when `canRedo()` is false is a no-op.  (Both
functions are total; the source returns before mutating anything.) -/
theorem undo_redo_noop_on_empty (st : MState) :
    (canUndo st = false → undo st = st) ∧ (canRedo st = false → redo st = st) := by
  constructor
  · intro h
    apply undo_of_empty
    simpa [canUndo] using h
  · intro h
    apply redo_of_empty
    simpa [canRedo] using h

theorem undo_redo_noop_on_empty_witness :
    canUndo (initState []) = false ∧ canRedo (initState []) = false ∧
    undo (initState []) = initState [] ∧ redo (initState []) = initState [] :=
  ⟨by decide, by decide,
    (undo_redo_noop_on_empty (initState [])).1 (by decide),
    (undo_redo_noop_on_empty (initState [])).2 (by decide)⟩

/-- C5: while `undo()`/`redo()` replays a batch the listeners record no
new commands: the resulting stacks are exactly the popped batch moved,
unmodified, to the opposite stack — no entry is added anywhere else and
no command is appended to any batch (in particular the open buffer, if
any, is untouched). -/
theorem replay_records_nothing (st : MState) (b : BatchCommand) (rest : List BatchCommand) :
    (st.undoStack = b :: rest →
       (undo st).undoStack = rest ∧ (undo st).redoStack = b :: st.redoStack ∧
       (undo st).currentBatch = st.currentBatch) ∧
    (st.redoStack = b :: rest →
       (redo st).redoStack = rest ∧ (redo st).undoStack = b :: st.undoStack ∧
       (redo st).currentBatch = st.currentBatch) := by
  constructor <;> intro h
  · rw [undo_eq st b rest h]; exact ⟨rfl, rfl, rfl⟩
  · rw [redo_eq st b rest h]; exact ⟨rfl, rfl, rfl⟩

theorem replay_records_nothing_witness :
    (let b : BatchCommand := ⟨[⟨CommandType.add, "a", none, none, some ⟨"a", "node", []⟩⟩], none⟩
     let st : MState := { graph := [⟨"a", "node", []⟩], undoStack := [b], redoStack := [b] }
     st.undoStack = b :: [] ∧ st.redoStack = b :: [] ∧
     ((undo st).undoStack = [] ∧ (undo st).redoStack = b :: st.redoStack ∧
       (undo st).currentBatch = st.currentBatch) ∧
     ((redo st).redoStack = [] ∧ (redo st).undoStack = b :: st.undoStack ∧
       (redo st).currentBatch = st.currentBatch)) :=
  ⟨rfl, rfl,
    (replay_records_nothing _ _ _).1 rfl,
    (replay_records_nothing _ _ _).2 rfl⟩

/-- C2: the batch popped by `undo()` is reversed in reverse insertion
order (the last appended command is reversed first: the replay equals a
left fold of `reverseApplyG` over the reversed command list), and the
batch popped by `redo()` is re-applied in forward insertion order. -/
theorem undo_reverse_redo_forward_order (st : MState) (b : BatchCommand)
    (rest : List BatchCommand) :
    (st.undoStack = b :: rest →
       (undo st).graph = b.commands.reverse.foldl (fun g c => reverseApplyG c g) st.graph) ∧
    (st.redoStack = b :: rest →
       (redo st).graph = b.commands.foldl (fun g c => applyCommandG c g) st.graph) := by
  constructor <;> intro h
  · rw [undo_eq st b rest h]
    show b.commands.foldr (fun c g => reverseApplyG c g) st.graph = _
    rw [List.foldl_reverse]
  · rw [redo_eq st b rest h]

theorem undo_reverse_redo_forward_order_witness :
    (let b : BatchCommand :=
       ⟨[⟨CommandType.change, "a", some [("x", JVal.num 0)], some [("x", JVal.num 1)], none⟩,
         ⟨CommandType.change, "a", some [("x", JVal.num 1)], some [("x", JVal.num 2)], none⟩], none⟩
     let st : MState := { graph := [⟨"a", "node", [("x", JVal.num 2)]⟩],
                          undoStack := [b], redoStack := [b] }
     st.undoStack = b :: [] ∧ st.redoStack = b :: [] ∧
     (undo st).graph = b.commands.reverse.foldl (fun g c => reverseApplyG c g) st.graph ∧
     (redo st).graph = b.commands.foldl (fun g c => applyCommandG c g) st.graph) :=
  ⟨rfl, rfl,
    (undo_reverse_redo_forward_order _ _ _).1 rfl,
    (undo_reverse_redo_forward_order _ _ _).2 rfl⟩

/-- C9: during replay, a command whose target cell id is missing from the
graph — when the command would remove the cell or set its attributes — is
skipped (the state passes through unchanged), and the remaining commands
of the batch are still replayed: deleting such a command from a batch at
the point where it is stale does not change the replay's result.  All
replay functions are total, so the call completes without an error. -/
theorem stale_commands_skipped :
    (∀ (cmd : Command) (st : MState),
        (cmd.type = CommandType.add ∨ cmd.type = CommandType.change) →
        getCell st.graph cmd.cellId = none →
        reverseCommandM cmd st = st) ∧
    (∀ (cmd : Command) (st : MState),
        (cmd.type = CommandType.remove ∨ cmd.type = CommandType.change) →
        getCell st.graph cmd.cellId = none →
        applyCommandM cmd st = st) ∧
    (∀ (st : MState) (pre post : List Command) (cmd : Command),
        (cmd.type = CommandType.add ∨ cmd.type = CommandType.change) →
        getCell ((post.foldr (fun c s => reverseCommandM c s) st).graph) cmd.cellId = none →
        (pre ++ cmd :: post).foldr (fun c s => reverseCommandM c s) st =
          (pre ++ post).foldr (fun c s => reverseCommandM c s) st) ∧
    (∀ (st : MState) (pre post : List Command) (cmd : Command),
        (cmd.type = CommandType.remove ∨ cmd.type = CommandType.change) →
        getCell ((pre.foldl (fun s c => applyCommandM c s) st).graph) cmd.cellId = none →
        (pre ++ cmd :: post).foldl (fun s c => applyCommandM c s) st =
          (pre ++ post).foldl (fun s c => applyCommandM c s) st) := by
  have hrev : ∀ (cmd : Command) (st : MState),
      (cmd.type = CommandType.add ∨ cmd.type = CommandType.change) →
      getCell st.graph cmd.cellId = none → reverseCommandM cmd st = st := by
    rintro ⟨ty, cid, prev, new, cj⟩ st (h | h) hg <;>
      (simp only at h; subst h; simp [reverseCommandM, hg])
  have happ : ∀ (cmd : Command) (st : MState),
      (cmd.type = CommandType.remove ∨ cmd.type = CommandType.change) →
      getCell st.graph cmd.cellId = none → applyCommandM cmd st = st := by
    rintro ⟨ty, cid, prev, new, cj⟩ st (h | h) hg <;>
      (simp only at h; subst h; simp [applyCommandM, hg])
  refine ⟨hrev, happ, ?_, ?_⟩
  · intro st pre post cmd hty hg
    rw [List.foldr_append, List.foldr_append, List.foldr_cons,
      hrev cmd _ hty hg]
  · intro st pre post cmd hty hg
    rw [List.foldl_append, List.foldl_append, List.foldl_cons,
      happ cmd _ hty hg]

theorem stale_commands_skipped_witness :
    (let cmd : Command := ⟨CommandType.change, "ghost", some [("x", JVal.num 0)],
       some [("x", JVal.num 1)], none⟩
     let st : MState := initState []
     (cmd.type = CommandType.add ∨ cmd.type = CommandType.change) ∧
     (cmd.type = CommandType.remove ∨ cmd.type = CommandType.change) ∧
     getCell st.graph cmd.cellId = none ∧
     reverseCommandM cmd st = st ∧
     applyCommandM cmd st = st ∧
     ([] ++ cmd :: []).foldr (fun c s => reverseCommandM c s) st =
       (([] : List Command) ++ []).foldr (fun c s => reverseCommandM c s) st ∧
     ([] ++ cmd :: []).foldl (fun s c => applyCommandM c s) st =
       (([] : List Command) ++ []).foldl (fun s c => applyCommandM c s) st) :=
  ⟨Or.inr rfl, Or.inr rfl, rfl,
    stale_commands_skipped.1 _ _ (Or.inr rfl) rfl,
    stale_commands_skipped.2.1 _ _ (Or.inr rfl) rfl,
    stale_commands_skipped.2.2.1 _ [] [] _ (Or.inr rfl) rfl,
    stale_commands_skipped.2.2.2 _ [] [] _ (Or.inr rfl) rfl⟩

/-- C8 counterexample: the claim requires every `undo()` call — including
one made when the undo stack is empty — to fire exactly one notification;
but `undo()` on an empty stack returns before `notify()`, so zero
notifications fire on the freshly constructed manager. -/
theorem notify_on_empty_undo_cex :
    ¬ ((undo (initState [])).notifyLog =
        ((undo (initState [])).undoStack, (undo (initState [])).redoStack) ::
          (initState ([] : SceneGraph)).notifyLog) := by
  decide

/-- C8 (amended): every push of an unbatched recorded mutation, every
`undo()`/`redo()` of a non-empty stack, every outermost `stopBatch`, and
every `clear()` notifies the subscribers exactly once, and only after the
stacks have reached their final state for that operation (the logged
entry equals the final stacks); `undo()`/`redo()` on an empty stack
notify zero times. -/
theorem notify_once_after_final_state :
    (∀ (st : MState) (op : GraphOp) (cmd : Command),
        st.isExecuting = false → st.currentBatch = none →
        commandOf st.graph op = some cmd →
        (mutateGraph st op).notifyLog =
          ((mutateGraph st op).undoStack, (mutateGraph st op).redoStack) :: st.notifyLog) ∧
    (∀ st : MState,
        (undo st).notifyLog =
          if canUndo st then
            ((undo st).undoStack, (undo st).redoStack) :: st.notifyLog
          else st.notifyLog) ∧
    (∀ st : MState,
        (redo st).notifyLog =
          if canRedo st then
            ((redo st).undoStack, (redo st).redoStack) :: st.notifyLog
          else st.notifyLog) ∧
    (∀ (st : MState) (cmds : List Command),
        st.batchDepth = 1 → st.currentBatch = some cmds →
        (stopBatch st).notifyLog =
          ((stopBatch st).undoStack, (stopBatch st).redoStack) :: st.notifyLog) ∧
    (∀ st : MState,
        (clear st).notifyLog =
          ((clear st).undoStack, (clear st).redoStack) :: st.notifyLog) := by
  refine ⟨?_, ?_, ?_, ?_, ?_⟩
  · intro st op cmd hf hb hc
    rw [mutateGraph_of_recorded st op cmd hf hc,
      pushCommand_of_no_batch { st with graph := applyOpG st.graph op } cmd hb]
  · intro st
    cases hs : st.undoStack with
    | nil => rw [undo_of_empty st hs]; simp [canUndo, hs]
    | cons b rest => rw [undo_eq st b rest hs]; simp [canUndo, hs]
  · intro st
    cases hs : st.redoStack with
    | nil => rw [redo_of_empty st hs]; simp [canRedo, hs]
    | cons b rest => rw [redo_eq st b rest hs]; simp [canRedo, hs]
  · intro st cmds h1 h2
    cases cmds with
    | nil => rw [stopBatch_of_outer_empty st (by omega) h2]
    | cons c cs => rw [stopBatch_of_outer_push st (c :: cs) (by omega) h2 (by simp)]
  · intro st
    rfl

theorem notify_once_after_final_state_witness :
    (let st : MState :=
       { graph := [⟨"a", "node", []⟩],
         undoStack := [⟨[⟨CommandType.remove, "a", none, none, some ⟨"a", "node", []⟩⟩], none⟩] }
     let st2 : MState := { graph := [], batchDepth := 1, currentBatch := some [] }
     let op : GraphOp := GraphOp.removeById "a"
     st.isExecuting = false ∧ st.currentBatch = none ∧
     (commandOf st.graph op).isSome = true ∧
     (mutateGraph st op).notifyLog =
       ((mutateGraph st op).undoStack, (mutateGraph st op).redoStack) :: st.notifyLog ∧
     (undo st).notifyLog =
       (if canUndo st then ((undo st).undoStack, (undo st).redoStack) :: st.notifyLog
        else st.notifyLog) ∧
     (redo st).notifyLog =
       (if canRedo st then ((redo st).undoStack, (redo st).redoStack) :: st.notifyLog
        else st.notifyLog) ∧
     (stopBatch st2).notifyLog =
       ((stopBatch st2).undoStack, (stopBatch st2).redoStack) :: st2.notifyLog ∧
     (clear st).notifyLog = ((clear st).undoStack, (clear st).redoStack) :: st.notifyLog) :=
  ⟨rfl, rfl, rfl,
    notify_once_after_final_state.1 _ (GraphOp.removeById "a")
      ⟨CommandType.remove, "a", none, none, some ⟨"a", "node", []⟩⟩ rfl rfl rfl,
    notify_once_after_final_state.2.1 _,
    notify_once_after_final_state.2.2.1 _,
    notify_once_after_final_state.2.2.2.1 _ [] rfl rfl,
    notify_once_after_final_state.2.2.2.2 _⟩

/-- C3 counterexample: from a state with redo history, open a batch and
record a mutation into it; the mutation is recorded (the open buffer
gains exactly one command) and completes, yet `canRedo()` is still true —
the redo stack is only cleared when the batch is later sealed. -/
theorem redo_invalidation_cex :
    (let s := runOps (initState [⟨"a", "node", [("x", JVal.num 0)]⟩])
        [PublicOp.mutate (GraphOp.setAttrs "a" [("x", JVal.num 1)]), PublicOp.doUndo,
         PublicOp.startB none, PublicOp.mutate (GraphOp.setAttrs "a" [("x", JVal.num 2)])]
     (s.currentBatch.map List.length = some 1) ∧ canRedo s = true) := by
  decide

/-- C3 (amended): whenever a new user-originated batch is pushed onto the
undo stack — as a singleton for an unbatched recorded mutation, or when
the outermost `stopBatch` seals a non-empty buffer — the redo stack is
cleared, so `canRedo()` is false immediately after any unbatched recorded
mutation and after the outermost `stopBatch` of a recording batch.  (A
mutation recorded into a still-open batch does not clear the redo stack
until that batch is sealed.) -/
theorem push_clears_redo (st : MState) :
    (∀ op : GraphOp, st.currentBatch = none → recordsOp st op = true →
        canRedo (mutateGraph st op) = false) ∧
    (∀ cmds : List Command, st.batchDepth = 1 → st.currentBatch = some cmds →
        cmds ≠ [] → canRedo (stopBatch st) = false) := by
  constructor
  · intro op hb hr
    simp only [recordsOp, Bool.and_eq_true, Bool.not_eq_eq_eq_not, Bool.not_true,
      Option.isSome_iff_exists] at hr
    obtain ⟨hf, cmd, hc⟩ := hr
    rw [mutateGraph_of_recorded st op cmd hf hc,
      pushCommand_of_no_batch { st with graph := applyOpG st.graph op } cmd hb]
    rfl
  · intro cmds h1 h2 h3
    rw [stopBatch_of_outer_push st cmds (by omega) h2 h3]
    rfl

theorem push_clears_redo_witness :
    (let st : MState :=
       { graph := [⟨"a", "node", []⟩],
         redoStack := [⟨[⟨CommandType.add, "b", none, none, some ⟨"b", "node", []⟩⟩], none⟩] }
     st.currentBatch = none ∧ recordsOp st (GraphOp.removeById "a") = true ∧
     canRedo (mutateGraph st (GraphOp.removeById "a")) = false) ∧
    (let st2 : MState :=
       { graph := [],
         batchDepth := 1,
         currentBatch := some [⟨CommandType.add, "b", none, none, some ⟨"b", "node", []⟩⟩],
         redoStack := [⟨[⟨CommandType.add, "c", none, none, some ⟨"c", "node", []⟩⟩], none⟩] }
     st2.batchDepth = 1 ∧ canRedo (stopBatch st2) = false) :=
  ⟨⟨rfl, by decide,
      (push_clears_redo _).1 (GraphOp.removeById "a") rfl (by decide)⟩,
    ⟨rfl, (push_clears_redo _).2 _ rfl rfl (by decide)⟩⟩

/-! ### Reachable-state invariants: bounded stacks, no empty batches -/

/-- The inductive invariant of the history stacks: their combined size
never exceeds the cap, and no batch on either stack is empty. -/
def Inv (st : MState) : Prop :=
  st.undoStack.length + st.redoStack.length ≤ maxStackSize ∧
  (∀ b ∈ st.undoStack, b.commands ≠ []) ∧
  (∀ b ∈ st.redoStack, b.commands ≠ [])

theorem inv_of_stacks_eq (st st' : MState) (hu : st'.undoStack = st.undoStack)
    (hr : st'.redoStack = st.redoStack) (h : Inv st) : Inv st' := by
  unfold Inv at *
  rw [hu, hr]
  exact h

theorem trimPush_length_le (b : BatchCommand) (S : List BatchCommand)
    (h : S.length ≤ maxStackSize) : (trimPush b S).length ≤ maxStackSize := by
  simp only [trimPush]
  split
  case isTrue h1 =>
    simp only [List.length_dropLast, List.length_cons]
    omega
  case isFalse h1 =>
    simp only [List.length_cons] at h1 ⊢
    omega

theorem mem_trimPush (b x : BatchCommand) (S : List BatchCommand)
    (h : x ∈ trimPush b S) : x = b ∨ x ∈ S := by
  simp only [trimPush] at h
  split at h
  · have := (List.dropLast_sublist (b :: S)).mem h
    simpa using this
  · simpa using h

theorem inv_pushCommand (st : MState) (cmd : Command) (h : Inv st) :
    Inv (pushCommand st cmd) := by
  cases hb : st.currentBatch with
  | some batch =>
      rw [pushCommand_of_open_batch st cmd batch hb]
      exact inv_of_stacks_eq st _ rfl rfl h
  | none =>
      rw [pushCommand_of_no_batch st cmd hb]
      obtain ⟨hlen, hu, hr⟩ := h
      refine ⟨?_, ?_, ?_⟩
      · simpa using trimPush_length_le _ _ (by omega)
      · intro x hx
        rcases mem_trimPush _ x _ hx with h1 | h1
        · subst h1; simp
        · exact hu x h1
      · intro x hx
        simp at hx

theorem inv_mutateGraph (st : MState) (op : GraphOp) (h : Inv st) :
    Inv (mutateGraph st op) := by
  by_cases hf : st.isExecuting
  · rw [mutateGraph_of_isExecuting st op hf]
    exact inv_of_stacks_eq st _ rfl rfl h
  · cases hc : commandOf st.graph op with
    | none =>
        rw [mutateGraph_of_unrecorded st op hc]
        exact inv_of_stacks_eq st _ rfl rfl h
    | some cmd =>
        rw [mutateGraph_of_recorded st op cmd (by simpa using hf) hc]
        exact inv_pushCommand _ cmd (inv_of_stacks_eq st _ rfl rfl h)

theorem inv_startBatch (st : MState) (l : Option String) (h : Inv st) :
    Inv (startBatch st l) := by
  obtain ⟨h1, h2, _⟩ := startBatch_stacks st l
  exact inv_of_stacks_eq st _ h1 h2 h

theorem inv_stopBatch (st : MState) (h : Inv st) : Inv (stopBatch st) := by
  cases hb : st.currentBatch with
  | none =>
      rw [stopBatch_of_none st hb]
      exact inv_of_stacks_eq st _ rfl rfl h
  | some cmds =>
      by_cases hd : st.batchDepth - 1 = 0
      · by_cases hc : cmds = []
        · subst hc
          rw [stopBatch_of_outer_empty st hd hb]
          exact inv_of_stacks_eq st _ rfl rfl h
        · rw [stopBatch_of_outer_push st cmds hd hb hc]
          obtain ⟨hl, hu, hr⟩ := h
          refine ⟨?_, ?_, ?_⟩
          · show (trimPush ⟨cmds, st.pendingLabel⟩ st.undoStack).length + 0 ≤ maxStackSize
            have := trimPush_length_le ⟨cmds, st.pendingLabel⟩ st.undoStack (by omega)
            omega
          · intro x hx
            rcases mem_trimPush _ x _ hx with h1 | h1
            · subst h1; exact hc
            · exact hu x h1
          · intro x hx
            simp at hx
      · rw [stopBatch_of_inner st (by omega)]
        exact inv_of_stacks_eq st _ rfl rfl h

theorem inv_undo (st : MState) (h : Inv st) : Inv (undo st) := by
  cases hs : st.undoStack with
  | nil => rwa [undo_of_empty st hs]
  | cons b rest =>
      rw [undo_eq st b rest hs]
      obtain ⟨hl, hu, hr⟩ := h
      rw [hs] at hl hu
      refine ⟨?_, ?_, ?_⟩
      · show rest.length + (b :: st.redoStack).length ≤ maxStackSize
        simp only [List.length_cons] at hl ⊢
        omega
      · intro x hx
        exact hu x (List.mem_cons_of_mem b hx)
      · intro x hx
        rcases List.mem_cons.mp hx with h1 | h1
        · subst h1
          exact hu x (List.mem_cons_self x rest)
        · exact hr x h1

theorem inv_redo (st : MState) (h : Inv st) : Inv (redo st) := by
  cases hs : st.redoStack with
  | nil => rwa [redo_of_empty st hs]
  | cons b rest =>
      rw [redo_eq st b rest hs]
      obtain ⟨hl, hu, hr⟩ := h
      rw [hs] at hl hr
      refine ⟨?_, ?_, ?_⟩
      · show (b :: st.undoStack).length + rest.length ≤ maxStackSize
        simp only [List.length_cons] at hl ⊢
        omega
      · intro x hx
        rcases List.mem_cons.mp hx with h1 | h1
        · subst h1
          exact hr x (List.mem_cons_self x rest)
        · exact hu x h1
      · intro x hx
        exact hr x (List.mem_cons_of_mem b hx)

theorem inv_clear (st : MState) (_h : Inv st) : Inv (clear st) := by
  refine ⟨by simp [clear, notifyS, maxStackSize], ?_, ?_⟩ <;>
    (intro x hx; simp [clear, notifyS] at hx)

theorem inv_runOp (st : MState) (p : PublicOp) (h : Inv st) : Inv (runOp st p) := by
  cases p with
  | mutate op => exact inv_mutateGraph st op h
  | startB l => exact inv_startBatch st l h
  | stopB => exact inv_stopBatch st h
  | doUndo => exact inv_undo st h
  | doRedo => exact inv_redo st h
  | doClear => exact inv_clear st h

theorem inv_runOps (st : MState) (ops : List PublicOp) (h : Inv st) :
    Inv (runOps st ops) := by
  induction ops generalizing st with
  | nil => exact h
  | cons p rest ih => exact ih (runOp st p) (inv_runOp st p h)

theorem inv_initState (g : SceneGraph) : Inv (initState g) := by
  refine ⟨by simp [initState, maxStackSize], ?_, ?_⟩ <;>
    (intro x hx; simp [initState] at hx)

theorem trimPush_of_full (b : BatchCommand) (S : List BatchCommand)
    (h : S.length = maxStackSize) : trimPush b S = b :: S.dropLast := by
  cases S with
  | nil => simp [maxStackSize] at h
  | cons s S' =>
      have hgt : maxStackSize < (b :: s :: S').length := by
        simp only [List.length_cons] at h ⊢
        omega
      simp only [trimPush, if_pos hgt]
      rfl

/-- C6: for properly nested `startBatch`/`stopBatch` calls, only the
outermost `stopBatch` (depth 1 → 0) pushes the accumulated buffer — as a
single batch — onto the undo stack; `startBatch` and inner `stopBatch`
calls push nothing; an outermost `stopBatch` over an empty buffer pushes
nothing; and no empty batch ever appears on either stack in any reachable
state. -/
theorem outer_stopBatch_pushes_once :
    (∀ (st : MState) (l : Option String),
        (startBatch st l).undoStack = st.undoStack ∧
        (startBatch st l).redoStack = st.redoStack) ∧
    (∀ st : MState, 2 ≤ st.batchDepth →
        stopBatch st = { st with batchDepth := st.batchDepth - 1 }) ∧
    (∀ st : MState, st.batchDepth = 1 → st.currentBatch = some [] →
        (stopBatch st).undoStack = st.undoStack ∧
        (stopBatch st).redoStack = st.redoStack ∧
        (stopBatch st).currentBatch = none) ∧
    (∀ (st : MState) (cmds : List Command),
        st.batchDepth = 1 → st.currentBatch = some cmds → cmds ≠ [] →
        (stopBatch st).undoStack = trimPush ⟨cmds, st.pendingLabel⟩ st.undoStack ∧
        (stopBatch st).redoStack = [] ∧
        (stopBatch st).currentBatch = none) ∧
    (∀ (g0 : SceneGraph) (ops : List PublicOp),
        (∀ b ∈ (runOps (initState g0) ops).undoStack, b.commands ≠ []) ∧
        (∀ b ∈ (runOps (initState g0) ops).redoStack, b.commands ≠ [])) := by
  refine ⟨?_, stopBatch_of_inner, ?_, ?_, ?_⟩
  · intro st l
    exact ⟨(startBatch_stacks st l).1, (startBatch_stacks st l).2.1⟩
  · intro st h1 h2
    rw [stopBatch_of_outer_empty st (by omega) h2]
    exact ⟨rfl, rfl, rfl⟩
  · intro st cmds h1 h2 h3
    rw [stopBatch_of_outer_push st cmds (by omega) h2 h3]
    exact ⟨rfl, rfl, rfl⟩
  · intro g0 ops
    have h := inv_runOps (initState g0) ops (inv_initState g0)
    exact ⟨h.2.1, h.2.2⟩

theorem outer_stopBatch_pushes_once_witness :
    (let stIn : MState := { graph := [], batchDepth := 2 }
     let stEm : MState := { graph := [], batchDepth := 1, currentBatch := some [] }
     let cmds : List Command := [⟨CommandType.add, "b", none, none, some ⟨"b", "node", []⟩⟩]
     let stPu : MState := { graph := [], batchDepth := 1, currentBatch := some cmds }
     (2 ≤ stIn.batchDepth ∧ stopBatch stIn = { stIn with batchDepth := 1 }) ∧
     ((stopBatch stEm).undoStack = stEm.undoStack ∧
       (stopBatch stEm).redoStack = stEm.redoStack ∧
       (stopBatch stEm).currentBatch = none) ∧
     ((stopBatch stPu).undoStack = trimPush ⟨cmds, stPu.pendingLabel⟩ stPu.undoStack ∧
       (stopBatch stPu).redoStack = [] ∧
       (stopBatch stPu).currentBatch = none)) :=
  ⟨⟨by decide, outer_stopBatch_pushes_once.2.1 _ (by decide)⟩,
    outer_stopBatch_pushes_once.2.2.1 _ rfl rfl,
    outer_stopBatch_pushes_once.2.2.2.1 _ _ rfl rfl (by decide)⟩

/-- C10: after every sequence of public operations from a fresh manager,
the undo-stack length plus the redo-stack length is at most the cap
(`maxStackSize = 100`); `undo()` and `redo()` each preserve that sum on
every state (they only move one batch, or do nothing); and a singleton
push from an unbatched recorded mutation trims the undo stack back to the
cap and clears the redo stack. -/
theorem stack_sum_bounded :
    (∀ (g0 : SceneGraph) (ops : List PublicOp),
        (runOps (initState g0) ops).undoStack.length +
          (runOps (initState g0) ops).redoStack.length ≤ maxStackSize) ∧
    (∀ st : MState,
        (undo st).undoStack.length + (undo st).redoStack.length =
          st.undoStack.length + st.redoStack.length) ∧
    (∀ st : MState,
        (redo st).undoStack.length + (redo st).redoStack.length =
          st.undoStack.length + st.redoStack.length) ∧
    (∀ (st : MState) (cmd : Command), st.currentBatch = none →
        st.undoStack.length ≤ maxStackSize →
        (pushCommand st cmd).undoStack.length ≤ maxStackSize ∧
        (pushCommand st cmd).redoStack = []) := by
  refine ⟨?_, ?_, ?_, ?_⟩
  · intro g0 ops
    exact (inv_runOps (initState g0) ops (inv_initState g0)).1
  · intro st
    cases hs : st.undoStack with
    | nil => rw [undo_of_empty st hs, hs]
    | cons b rest =>
        rw [undo_eq st b rest hs]
        simp only [List.length_cons]
        omega
  · intro st
    cases hs : st.redoStack with
    | nil => rw [redo_of_empty st hs, hs]
    | cons b rest =>
        rw [redo_eq st b rest hs]
        simp only [List.length_cons]
        omega
  · intro st cmd hb hlen
    rw [pushCommand_of_no_batch st cmd hb]
    exact ⟨trimPush_length_le _ _ hlen, rfl⟩

theorem stack_sum_bounded_witness :
    (let st : MState := { graph := [] }
     st.currentBatch = none ∧ st.undoStack.length ≤ maxStackSize ∧
     ((pushCommand st ⟨CommandType.add, "a", none, none, some ⟨"a", "node", []⟩⟩).undoStack.length
         ≤ maxStackSize ∧
       (pushCommand st ⟨CommandType.add, "a", none, none, some ⟨"a", "node", []⟩⟩).redoStack = []) ∧
     (undo st).undoStack.length + (undo st).redoStack.length =
       st.undoStack.length + st.redoStack.length) :=
  ⟨rfl, by decide,
    stack_sum_bounded.2.2.2 _ _ rfl (by decide),
    stack_sum_bounded.2.1 _⟩

/-- The spec's cap-overflow scenario: `maxStackSize + 1` creations of
distinct fresh cells, starting from the empty graph, each of which is
recorded as a singleton batch. -/
def capRawOps : List GraphOp :=
  (List.range (maxStackSize + 1)).map
    (fun i => GraphOp.insert ⟨toString i, "node", []⟩)

/-- The overflow scenario followed by `maxStackSize` calls to `undo()`. -/
def capScenario : List PublicOp :=
  capRawOps.map PublicOp.mutate ++ List.replicate maxStackSize PublicOp.doUndo

set_option maxRecDepth 10000 in
/-- C4: in every reachable state the undo stack holds at most
`maxStackSize` (100) batches; a recorded unbatched push arriving when the
stack is exactly at the cap evicts the oldest (first-pushed) batch, which
sits at the list's tail; and in the spec's overflow scenario — cap + 1
recorded creations from the empty graph followed by cap undos — the final
graph differs from the original empty graph: the oldest step has become
unrecoverable. -/
theorem undo_stack_capped :
    (∀ (g0 : SceneGraph) (ops : List PublicOp),
        (runOps (initState g0) ops).undoStack.length ≤ maxStackSize) ∧
    (∀ (st : MState) (op : GraphOp) (cmd : Command),
        st.currentBatch = none → st.isExecuting = false →
        commandOf st.graph op = some cmd →
        st.undoStack.length = maxStackSize →
        (mutateGraph st op).undoStack = ⟨[cmd], none⟩ :: st.undoStack.dropLast) ∧
    (allRecordedG [] capRawOps = true ∧
      (runOps (initState []) capScenario).graph ≠ []) := by
  refine ⟨?_, ?_, ?_, ?_⟩
  · intro g0 ops
    have h := (inv_runOps (initState g0) ops (inv_initState g0)).1
    omega
  · intro st op cmd hb hf hc hlen
    rw [mutateGraph_of_recorded st op cmd hf hc,
      pushCommand_of_no_batch { st with graph := applyOpG st.graph op } cmd hb]
    show trimPush ⟨[cmd], none⟩ st.undoStack = _
    rw [trimPush_of_full _ _ hlen]
  · decide
  · decide

set_option maxRecDepth 10000 in
theorem undo_stack_capped_witness :
    (let st : MState :=
       { graph := [⟨"z", "node", []⟩],
         undoStack := List.replicate maxStackSize
           ⟨[⟨CommandType.add, "q", none, none, some ⟨"q", "node", []⟩⟩], none⟩ }
     st.currentBatch = none ∧ st.isExecuting = false ∧
     commandOf st.graph (GraphOp.removeById "z") =
       some ⟨CommandType.remove, "z", none, none, some ⟨"z", "node", []⟩⟩ ∧
     st.undoStack.length = maxStackSize ∧
     (mutateGraph st (GraphOp.removeById "z")).undoStack =
       ⟨[⟨CommandType.remove, "z", none, none, some ⟨"z", "node", []⟩⟩], none⟩ ::
         st.undoStack.dropLast ∧
     (runOps (initState []) [] ).undoStack.length ≤ maxStackSize) :=
  ⟨rfl, rfl, rfl, by decide,
    undo_stack_capped.2.1 _ (GraphOp.removeById "z") _ rfl rfl rfl (by decide),
    undo_stack_capped.1 [] []⟩

/-- Well-formed attribute bag: unique keys (JS objects cannot repeat a
key). -/
def nodupKeys (a : AttrMap) : Prop := (a.map Prod.fst).Nodup

instance (a : AttrMap) : Decidable (nodupKeys a) := by
  unfold nodupKeys; infer_instance

/-- Well-formed scene graph: unique cell ids, and each cell's attribute
bag has unique keys. -/
def wfGraph (g : SceneGraph) : Prop :=
  (g.map Cell.id).Nodup ∧ ∀ c ∈ g, nodupKeys c.attrs

instance (g : SceneGraph) : Decidable (wfGraph g) := by
  unfold wfGraph; infer_instance

/-! ### Attribute-bag lemmas (towards the round-trip property) -/

theorem lookupAttr_isSome_eq (a : AttrMap) (k : String) :
    (lookupAttr a k).isSome = (a.find? (fun kv => kv.fst == k)).isSome := by
  unfold lookupAttr
  cases a.find? (fun kv => kv.fst == k) <;> rfl

theorem lookupAttr_isSome_iff (a : AttrMap) (k : String) :
    (lookupAttr a k).isSome = true ↔ k ∈ a.map Prod.fst := by
  rw [lookupAttr_isSome_eq, List.find?_isSome]
  constructor
  · rintro ⟨x, hx, hk⟩
    rw [beq_iff_eq] at hk
    exact List.mem_map.mpr ⟨x, hx, hk⟩
  · intro hmem
    obtain ⟨x, hx, hk⟩ := List.mem_map.mp hmem
    exact ⟨x, hx, by simpa using hk⟩

theorem lookupAttr_cons_self (kv : String × JVal) (rest : AttrMap) :
    lookupAttr (kv :: rest) kv.fst = some kv.snd := by
  unfold lookupAttr
  rw [List.find?_cons_of_pos rest (by simp)]
  rfl

theorem lookupAttr_cons_ne (kv : String × JVal) (rest : AttrMap) (k : String)
    (h : ¬ (kv.fst = k)) : lookupAttr (kv :: rest) k = lookupAttr rest k := by
  unfold lookupAttr
  rw [List.find?_cons_of_neg rest (by simpa using h)]

theorem keys_setAttr_of_isSome (a : AttrMap) (k : String) (v : JVal)
    (h : (lookupAttr a k).isSome = true) :
    (setAttr a k v).map Prod.fst = a.map Prod.fst := by
  have hfind : (a.find? (fun kv => kv.fst == k)).isSome = true := by
    simpa [lookupAttr] using h
  rw [setAttr, if_pos hfind, List.map_map]
  apply List.map_congr_left
  intro kv _
  by_cases hkv : kv.fst = k
  · simp [hkv]
  · simp [hkv]

theorem lookupAttr_setAttr_self (a : AttrMap) (k : String) (v : JVal)
    (h : (lookupAttr a k).isSome = true) :
    lookupAttr (setAttr a k v) k = some v := by
  have hfind : (a.find? (fun kv => kv.fst == k)).isSome = true := by
    simpa [lookupAttr] using h
  rw [setAttr, if_pos hfind]
  clear hfind
  induction a with
  | nil => simp [lookupAttr] at h
  | cons kv rest ih =>
      by_cases hkv : kv.fst = k
      · simp only [List.map_cons, if_pos (show (kv.fst == k) = true by simpa using hkv)]
        exact lookupAttr_cons_self (k, v) _
      · rw [List.map_cons, if_neg (show ¬ ((kv.fst == k) = true) by simpa using hkv),
          lookupAttr_cons_ne kv _ k hkv]
        exact ih (by rwa [lookupAttr_cons_ne kv rest k hkv] at h)

theorem lookupAttr_map_update (a : AttrMap) (k k' : String) (v : JVal)
    (h : ¬ (k' = k)) :
    lookupAttr (a.map (fun kv => if kv.fst == k then (k, v) else kv)) k' =
      lookupAttr a k' := by
  induction a with
  | nil => simp [lookupAttr]
  | cons kv rest ih =>
      by_cases hkv : kv.fst = k
      · rw [List.map_cons, if_pos (show (kv.fst == k) = true by simpa using hkv),
          lookupAttr_cons_ne (k, v) _ k' (fun hh => h hh.symm),
          lookupAttr_cons_ne kv rest k' (by rw [hkv]; exact fun hh => h hh.symm)]
        exact ih
      · rw [List.map_cons, if_neg (show ¬ ((kv.fst == k) = true) by simpa using hkv)]
        by_cases hk' : kv.fst = k'
        · rw [← hk']
          rw [lookupAttr_cons_self kv _, lookupAttr_cons_self kv _]
        · rw [lookupAttr_cons_ne kv _ k' hk', lookupAttr_cons_ne kv rest k' hk']
          exact ih

theorem lookupAttr_append_single (a : AttrMap) (k k' : String) (v : JVal)
    (h : ¬ (k' = k)) :
    lookupAttr (a ++ [(k, v)]) k' = lookupAttr a k' := by
  induction a with
  | nil =>
      simp only [List.nil_append]
      rw [lookupAttr_cons_ne (k, v) [] k' (fun hh => h hh.symm)]
  | cons kv rest ih =>
      by_cases hk' : kv.fst = k'
      · rw [List.cons_append, ← hk', lookupAttr_cons_self kv _, lookupAttr_cons_self kv _]
      · rw [List.cons_append, lookupAttr_cons_ne kv _ k' hk',
          lookupAttr_cons_ne kv rest k' hk']
        exact ih

theorem lookupAttr_setAttr_ne (a : AttrMap) (k k' : String) (v : JVal)
    (h : ¬ (k' = k)) : lookupAttr (setAttr a k v) k' = lookupAttr a k' := by
  rw [setAttr]
  split
  · exact lookupAttr_map_update a k k' v h
  · exact lookupAttr_append_single a k k' v h

theorem nodupKeys_setAttr (a : AttrMap) (k : String) (v : JVal)
    (h : nodupKeys a) : nodupKeys (setAttr a k v) := by
  cases hp : (lookupAttr a k).isSome with
  | true =>
      unfold nodupKeys
      rw [keys_setAttr_of_isSome a k v hp]
      exact h
  | false =>
      have hfind : ¬ ((a.find? (fun kv => kv.fst == k)).isSome = true) := by
        rw [← lookupAttr_isSome_eq, hp]
        simp
      have hknotin : k ∉ a.map Prod.fst := by
        intro hk
        have hsome := (lookupAttr_isSome_iff a k).mpr hk
        rw [hp] at hsome
        exact absurd hsome (by simp)
      unfold nodupKeys
      rw [setAttr, if_neg hfind, List.map_append]
      simp only [List.map_cons, List.map_nil]
      rw [List.nodup_append]
      refine ⟨h, List.nodup_singleton k, ?_⟩
      intro x hx hxk
      rw [List.mem_singleton] at hxk
      subst hxk
      exact hknotin hx

theorem lookupAttr_eq_none_of_not_mem (a : AttrMap) (k : String)
    (h : k ∉ a.map Prod.fst) : lookupAttr a k = none := by
  cases hl : lookupAttr a k with
  | none => rfl
  | some v =>
      exact absurd ((lookupAttr_isSome_iff a k).mp (by rw [hl]; rfl)) h

theorem lookupAttr_setAttr_isSome (a : AttrMap) (k : String) (v : JVal) (k' : String)
    (h : (lookupAttr a k').isSome = true) :
    (lookupAttr (setAttr a k v) k').isSome = true := by
  by_cases hk : k' = k
  · subst hk
    rw [lookupAttr_setAttr_self a k' v h]
    rfl
  · rw [lookupAttr_setAttr_ne a k k' v hk]
    exact h

theorem cellSet_cons (a : AttrMap) (kv : String × JVal) (rest : AttrMap) :
    cellSet a (kv :: rest) = cellSet (setAttr a kv.fst kv.snd) rest := rfl

theorem keys_cellSet (a us : AttrMap)
    (h : ∀ kv ∈ us, (lookupAttr a kv.fst).isSome = true) :
    (cellSet a us).map Prod.fst = a.map Prod.fst := by
  induction us generalizing a with
  | nil => rfl
  | cons kv rest ih =>
      rw [cellSet_cons,
        ih (setAttr a kv.fst kv.snd)
          (fun kv' h' =>
            lookupAttr_setAttr_isSome a kv.fst kv.snd kv'.fst
              (h kv' (List.mem_cons_of_mem kv h'))),
        keys_setAttr_of_isSome a kv.fst kv.snd (h kv (List.mem_cons_self kv rest))]

theorem nodupKeys_cellSet (a us : AttrMap) (h : nodupKeys a) :
    nodupKeys (cellSet a us) := by
  induction us generalizing a with
  | nil => exact h
  | cons kv rest ih =>
      rw [cellSet_cons]
      exact ih (setAttr a kv.fst kv.snd) (nodupKeys_setAttr a kv.fst kv.snd h)

theorem lookupAttr_cellSet_not_mem (a us : AttrMap) (k : String)
    (h : k ∉ us.map Prod.fst) :
    lookupAttr (cellSet a us) k = lookupAttr a k := by
  induction us generalizing a with
  | nil => rfl
  | cons kv rest ih =>
      simp only [List.map_cons, List.mem_cons] at h
      push_neg at h
      rw [cellSet_cons, ih (setAttr a kv.fst kv.snd) h.2,
        lookupAttr_setAttr_ne a kv.fst k kv.snd h.1]

theorem lookupAttr_cellSet_mem (a us : AttrMap) (k : String) (v : JVal)
    (hnd : nodupKeys us) (hus : lookupAttr us k = some v)
    (hpres : ∀ kv ∈ us, (lookupAttr a kv.fst).isSome = true) :
    lookupAttr (cellSet a us) k = some v := by
  induction us generalizing a with
  | nil => simp [lookupAttr] at hus
  | cons kv rest ih =>
      unfold nodupKeys at hnd
      rw [List.map_cons, List.nodup_cons] at hnd
      by_cases hk : kv.fst = k
      · rw [← hk] at hus ⊢
        rw [lookupAttr_cons_self kv rest] at hus
        rw [cellSet_cons,
          lookupAttr_cellSet_not_mem (setAttr a kv.fst kv.snd) rest kv.fst hnd.1,
          lookupAttr_setAttr_self a kv.fst kv.snd
            (hpres kv (List.mem_cons_self kv rest)),
          hus]
      · rw [lookupAttr_cons_ne kv rest k (fun hh => hk hh)] at hus
        rw [cellSet_cons]
        exact ih (setAttr a kv.fst kv.snd) hnd.2 hus
          (fun kv' h' =>
            lookupAttr_setAttr_isSome a kv.fst kv.snd kv'.fst
              (hpres kv' (List.mem_cons_of_mem kv h')))

theorem attrmap_ext (a : AttrMap) :
    ∀ b : AttrMap, a.map Prod.fst = b.map Prod.fst → nodupKeys a →
      (∀ k, lookupAttr a k = lookupAttr b k) → a = b := by
  induction a with
  | nil =>
      intro b hk _ _
      cases b with
      | nil => rfl
      | cons kv rest => simp at hk
  | cons kv rest ih =>
      intro b hk hnd hl
      cases b with
      | nil => simp at hk
      | cons kv' rest' =>
          simp only [List.map_cons, List.cons.injEq] at hk
          obtain ⟨hk1, hkrest⟩ := hk
          unfold nodupKeys at hnd
          rw [List.map_cons, List.nodup_cons] at hnd
          have hhead : kv = kv' := by
            have h1 := hl kv.fst
            rw [lookupAttr_cons_self kv rest] at h1
            have h2 : lookupAttr (kv' :: rest') kv.fst = some kv'.snd := by
              have := lookupAttr_cons_self kv' rest'
              rwa [← hk1] at this
            rw [h2] at h1
            exact Prod.ext hk1 (Option.some.inj h1)
          refine congrArg₂ (· :: ·) hhead (ih rest' hkrest hnd.2 ?_)
          intro k
          by_cases hkk : kv.fst = k
          · subst hkk
            rw [lookupAttr_eq_none_of_not_mem rest kv.fst hnd.1,
              lookupAttr_eq_none_of_not_mem rest' kv.fst
                (by rw [← hkrest]; exact hnd.1)]
          · have := hl k
            rwa [lookupAttr_cons_ne kv rest k hkk,
              lookupAttr_cons_ne kv' rest' k (by rwa [← hk1])] at this

theorem mem_changedPairs_iff (a us : AttrMap) (kv : String × JVal) :
    kv ∈ changedPairs a us ↔ kv ∈ us ∧ ¬ (lookupAttr a kv.fst = some kv.snd) := by
  unfold changedPairs
  rw [List.mem_filter]
  simp

theorem changedPairs_pres_of_all (a us : AttrMap)
    (h : ∀ kv ∈ changedPairs a us, (lookupAttr a kv.fst).isSome = true) :
    ∀ kv ∈ us, (lookupAttr a kv.fst).isSome = true := by
  intro kv hkv
  by_cases hc : lookupAttr a kv.fst = some kv.snd
  · rw [hc]; rfl
  · exact h kv ((mem_changedPairs_iff a us kv).mpr ⟨hkv, hc⟩)

theorem nodupKeys_changedPairs (a us : AttrMap) (h : nodupKeys us) :
    nodupKeys (changedPairs a us) := by
  unfold nodupKeys changedPairs at *
  exact (List.Sublist.map Prod.fst (List.filter_sublist us)).nodup h

theorem keys_prevOf (a l : AttrMap) :
    (prevOf a l).map Prod.fst = l.map Prod.fst := by
  unfold prevOf
  rw [List.map_map]
  rfl

theorem lookupAttr_prevOf_mem (a l : AttrMap) (k : String)
    (h : k ∈ l.map Prod.fst) :
    lookupAttr (prevOf a l) k = some ((lookupAttr a k).getD JVal.null) := by
  induction l with
  | nil => simp at h
  | cons kv rest ih =>
      by_cases hk : kv.fst = k
      · subst hk
        exact lookupAttr_cons_self (kv.fst, (lookupAttr a kv.fst).getD JVal.null) _
      · show lookupAttr ((kv.fst, (lookupAttr a kv.fst).getD JVal.null) :: prevOf a rest) k = _
        rw [lookupAttr_cons_ne (kv.fst, (lookupAttr a kv.fst).getD JVal.null) _ k hk]
        apply ih
        simp only [List.map_cons, List.mem_cons] at h
        rcases h with h | h
        · exact absurd h.symm hk
        · exact h

theorem mem_of_lookupAttr (l : AttrMap) (k : String) (v : JVal)
    (h : lookupAttr l k = some v) : (k, v) ∈ l := by
  induction l with
  | nil => simp [lookupAttr] at h
  | cons kv rest ih =>
      by_cases hk : kv.fst = k
      · rw [← hk, lookupAttr_cons_self kv rest] at h
        have hv : kv.snd = v := Option.some.inj h
        rw [← hk, ← hv]
        exact List.mem_cons_self kv rest
      · rw [lookupAttr_cons_ne kv rest k hk] at h
        exact List.mem_cons_of_mem kv (ih h)

/-- The attribute-level round trip: applying an update and then restoring
the changed keys' previous values (as the `change` command records them)
restores the attribute bag exactly, provided every changed key existed
before (which is exactly when a `change` command is recorded). -/
theorem cellSet_roundtrip (a us : AttrMap) (ha : nodupKeys a) (hus : nodupKeys us)
    (hpres : ∀ kv ∈ changedPairs a us, (lookupAttr a kv.fst).isSome = true) :
    cellSet (cellSet a us) (prevOf a (changedPairs a us)) = a := by
  have hpres' : ∀ kv ∈ us, (lookupAttr a kv.fst).isSome = true :=
    changedPairs_pres_of_all a us hpres
  have hkeys1 : (cellSet a us).map Prod.fst = a.map Prod.fst := keys_cellSet a us hpres'
  have hprevsub : ∀ k, k ∈ (prevOf a (changedPairs a us)).map Prod.fst →
      k ∈ us.map Prod.fst := by
    intro k hk
    rw [keys_prevOf] at hk
    obtain ⟨kv, hkv, hfst⟩ := List.mem_map.mp hk
    exact List.mem_map.mpr ⟨kv, ((mem_changedPairs_iff a us kv).mp hkv).1, hfst⟩
  have hpres2 : ∀ kv ∈ prevOf a (changedPairs a us),
      (lookupAttr (cellSet a us) kv.fst).isSome = true := by
    intro kv hkv
    rw [lookupAttr_isSome_iff, hkeys1]
    have hkmem : kv.fst ∈ (prevOf a (changedPairs a us)).map Prod.fst :=
      List.mem_map.mpr ⟨kv, hkv, rfl⟩
    obtain ⟨kv', hkv', hfst⟩ := List.mem_map.mp (hprevsub kv.fst hkmem)
    rw [← hfst]
    exact (lookupAttr_isSome_iff a kv'.fst).mp (hpres' kv' hkv')
  apply attrmap_ext
  · rw [keys_cellSet (cellSet a us) _ hpres2, hkeys1]
  · exact nodupKeys_cellSet (cellSet a us) _ (nodupKeys_cellSet a us ha)
  · intro k
    by_cases hkprev : k ∈ (prevOf a (changedPairs a us)).map Prod.fst
    · -- a changed key: restored to its recorded previous value
      have hkch : k ∈ (changedPairs a us).map Prod.fst := by
        rwa [keys_prevOf] at hkprev
      obtain ⟨kv, hkv, hfst⟩ := List.mem_map.mp hkch
      subst hfst
      have hkvpres := hpres kv hkv
      obtain ⟨v, hv⟩ := Option.isSome_iff_exists.mp hkvpres
      have hlv : lookupAttr (prevOf a (changedPairs a us)) kv.fst = some v := by
        rw [lookupAttr_prevOf_mem a (changedPairs a us) kv.fst
            (List.mem_map.mpr ⟨kv, hkv, rfl⟩), hv]
        rfl
      rw [lookupAttr_cellSet_mem (cellSet a us) _ kv.fst v
          (by unfold nodupKeys
              rw [keys_prevOf]
              exact nodupKeys_changedPairs a us hus)
          hlv hpres2, hv]
    · -- not a changed key: untouched by the restore
      rw [lookupAttr_cellSet_not_mem (cellSet a us) _ k hkprev]
      by_cases hkus : k ∈ us.map Prod.fst
      · -- present in the update but with an unchanged value
        obtain ⟨v, hv⟩ := Option.isSome_iff_exists.mp
          ((lookupAttr_isSome_iff us k).mpr hkus)
        have hvmem : (k, v) ∈ us := mem_of_lookupAttr us k v hv
        have hunchanged : lookupAttr a k = some v := by
          by_contra hne
          have hch : (k, v) ∈ changedPairs a us :=
            (mem_changedPairs_iff a us (k, v)).mpr ⟨hvmem, hne⟩
          have hmem : k ∈ (prevOf a (changedPairs a us)).map Prod.fst := by
            rw [keys_prevOf]
            exact List.mem_map.mpr ⟨(k, v), hch, rfl⟩
          exact hkprev hmem
        rw [lookupAttr_cellSet_mem a us k v hus hv hpres', hunchanged]
      · rw [lookupAttr_cellSet_not_mem a us k hkus]

/-- Well-formed raw operation: inserted cells and update maps carry
unique keys (as any JS object literal does). -/
def wfOp : GraphOp → Prop
  | .insert c => nodupKeys c.attrs
  | .removeById _ => True
  | .setAttrs _ us => nodupKeys us

instance (op : GraphOp) : Decidable (wfOp op) := by
  cases op <;> (unfold wfOp; infer_instance)

/-! ### Scene-graph lemmas -/

theorem lookupAttr_of_mem_nodup (l : AttrMap) (kv : String × JVal)
    (hnd : nodupKeys l) (hmem : kv ∈ l) : lookupAttr l kv.fst = some kv.snd := by
  induction l with
  | nil => simp at hmem
  | cons kv' rest ih =>
      unfold nodupKeys at hnd
      rw [List.map_cons, List.nodup_cons] at hnd
      rcases List.mem_cons.mp hmem with h | h
      · subst h
        exact lookupAttr_cons_self kv rest
      · have hne : ¬ (kv'.fst = kv.fst) := by
          intro he
          exact hnd.1 (he ▸ List.mem_map.mpr ⟨kv, h, rfl⟩)
        rw [lookupAttr_cons_ne kv' rest kv.fst hne]
        exact ih hnd.2 h

theorem getCell_isSome_iff (g : SceneGraph) (id : String) :
    (getCell g id).isSome = true ↔ id ∈ g.map Cell.id := by
  unfold getCell
  rw [List.find?_isSome]
  constructor
  · rintro ⟨c, hc, hid⟩
    exact List.mem_map.mpr ⟨c, hc, by simpa using hid⟩
  · intro h
    obtain ⟨c, hc, hid⟩ := List.mem_map.mp h
    exact ⟨c, hc, by simpa using hid⟩

theorem getCell_eq_none_iff (g : SceneGraph) (id : String) :
    getCell g id = none ↔ ∀ c ∈ g, ¬ (c.id = id) := by
  unfold getCell
  rw [List.find?_eq_none]
  constructor
  · intro h c hc
    have := h c hc
    simpa using this
  · intro h c hc
    simpa using h c hc

theorem getCell_mem (g : SceneGraph) (id : String) (c : Cell)
    (h : getCell g id = some c) : c ∈ g ∧ c.id = id := by
  refine ⟨List.mem_of_find?_eq_some h, ?_⟩
  have := List.find?_some h
  simpa using this

theorem getCell_of_mem_nodup (g : SceneGraph) (c : Cell)
    (hnd : (g.map Cell.id).Nodup) (hmem : c ∈ g) : getCell g c.id = some c := by
  induction g with
  | nil => simp at hmem
  | cons d rest ih =>
      rw [List.map_cons, List.nodup_cons] at hnd
      rcases List.mem_cons.mp hmem with h | h
      · subst h
        unfold getCell
        rw [List.find?_cons_of_pos rest (by simp)]
      · have hne : ¬ (d.id = c.id) := by
          intro he
          exact hnd.1 (he ▸ List.mem_map.mpr ⟨c, h, rfl⟩)
        unfold getCell
        rw [List.find?_cons_of_neg rest (by simpa using hne)]
        exact ih hnd.2 h

theorem getCell_perm (g g' : SceneGraph) (id : String)
    (hp : g.Perm g') (hnd : (g.map Cell.id).Nodup) :
    getCell g id = getCell g' id := by
  have hnd' : (g'.map Cell.id).Nodup := (hp.map Cell.id).nodup hnd
  cases hc : getCell g id with
  | some c =>
      obtain ⟨hmem, hid⟩ := getCell_mem g id c hc
      rw [← hid]
      exact (getCell_of_mem_nodup g' c hnd' (hp.mem_iff.mp hmem)).symm
  | none =>
      cases hc' : getCell g' id with
      | none => rfl
      | some c =>
          obtain ⟨hmem, hid⟩ := getCell_mem g' id c hc'
          exact absurd hid ((getCell_eq_none_iff g id).mp hc c (hp.mem_iff.mpr hmem))

theorem getCell_isSome_perm (g g' : SceneGraph) (id : String) (hp : g.Perm g') :
    (getCell g id).isSome = (getCell g' id).isSome := by
  rw [Bool.eq_iff_iff, getCell_isSome_iff, getCell_isSome_iff]
  exact (hp.map Cell.id).mem_iff

/-- An id-preserving per-cell update commutes with `getCell`. -/
theorem getCell_map_preserve (g : SceneGraph) (id : String) (f : Cell → Cell)
    (hf : ∀ c, (f c).id = c.id) :
    getCell (g.map f) id = (getCell g id).map f := by
  unfold getCell
  rw [List.find?_map]
  have hpf : ((fun c : Cell => c.id == id) ∘ f) = (fun c : Cell => c.id == id) := by
    funext c
    simp [Function.comp, hf c]
  rw [hpf]

theorem keys_map_preserve (g : SceneGraph) (f : Cell → Cell)
    (hf : ∀ c, (f c).id = c.id) :
    (g.map f).map Cell.id = g.map Cell.id := by
  rw [List.map_map]
  exact List.map_congr_left (fun c _ => hf c)

theorem applyOpG_insert_present (g : SceneGraph) (c : Cell)
    (h : (getCell g c.id).isSome = true) : applyOpG g (.insert c) = g := by
  simp [applyOpG, h]

theorem applyOpG_insert_absent (g : SceneGraph) (c : Cell)
    (h : getCell g c.id = none) : applyOpG g (.insert c) = g ++ [c] := by
  simp [applyOpG, h]

theorem applyOpG_remove_present (g : SceneGraph) (id : String)
    (h : (getCell g id).isSome = true) :
    applyOpG g (.removeById id) = g.filter (fun d => !(d.id == id)) := by
  simp [applyOpG, h]

theorem applyOpG_remove_absent (g : SceneGraph) (id : String)
    (h : getCell g id = none) : applyOpG g (.removeById id) = g := by
  simp [applyOpG, h]

theorem applyOpG_set_absent (g : SceneGraph) (id : String) (us : AttrMap)
    (h : getCell g id = none) : applyOpG g (.setAttrs id us) = g := by
  simp [applyOpG, h]

theorem applyOpG_set_unchanged (g : SceneGraph) (id : String) (us : AttrMap)
    (c : Cell) (h : getCell g id = some c)
    (he : (changedPairs c.attrs us).isEmpty = true) :
    applyOpG g (.setAttrs id us) = g := by
  simp [applyOpG, h, he]

theorem applyOpG_set_changed (g : SceneGraph) (id : String) (us : AttrMap)
    (c : Cell) (h : getCell g id = some c)
    (he : (changedPairs c.attrs us).isEmpty = false) :
    applyOpG g (.setAttrs id us) =
      g.map (fun d => if d.id == id then ⟨d.id, d.kind, cellSet d.attrs us⟩ else d) := by
  simp [applyOpG, h, he]

theorem commandOf_insert_inv (g : SceneGraph) (c : Cell) (cmd : Command)
    (h : commandOf g (.insert c) = some cmd) :
    getCell g c.id = none ∧ cmd = ⟨.add, c.id, none, none, some c⟩ := by
  cases hp : getCell g c.id with
  | some d =>
      rw [show commandOf g (.insert c) = none by simp [commandOf, hp]] at h
      cases h
  | none =>
      rw [show commandOf g (.insert c) = some ⟨.add, c.id, none, none, some c⟩ by
        simp [commandOf, hp]] at h
      exact ⟨rfl, (Option.some.inj h).symm⟩

theorem commandOf_remove_inv (g : SceneGraph) (id : String) (cmd : Command)
    (h : commandOf g (.removeById id) = some cmd) :
    ∃ c, getCell g id = some c ∧ cmd = ⟨.remove, id, none, none, some c⟩ := by
  cases hp : getCell g id with
  | none =>
      rw [show commandOf g (.removeById id) = none by simp [commandOf, hp]] at h
      cases h
  | some c =>
      rw [show commandOf g (.removeById id) = some ⟨.remove, id, none, none, some c⟩ by
        simp [commandOf, hp]] at h
      exact ⟨c, rfl, (Option.some.inj h).symm⟩

theorem commandOf_set_inv (g : SceneGraph) (id : String) (us : AttrMap) (cmd : Command)
    (h : commandOf g (.setAttrs id us) = some cmd) :
    ∃ c, getCell g id = some c ∧
      (changedPairs c.attrs us).isEmpty = false ∧
      (changedPairs c.attrs us).all
        (fun kv => (lookupAttr c.attrs kv.fst).isSome) = true ∧
      cmd = ⟨.change, id, some (prevOf c.attrs (changedPairs c.attrs us)),
        some (changedPairs c.attrs us), none⟩ := by
  cases hp : getCell g id with
  | none =>
      rw [show commandOf g (.setAttrs id us) = none by simp [commandOf, hp]] at h
      cases h
  | some c =>
      cases he : (changedPairs c.attrs us).isEmpty with
      | true =>
          rw [show commandOf g (.setAttrs id us) = none by simp [commandOf, hp, he]] at h
          cases h
      | false =>
          cases ha : (changedPairs c.attrs us).all
              (fun kv => (lookupAttr c.attrs kv.fst).isSome) with
          | false =>
              rw [show commandOf g (.setAttrs id us) = none by
                simp only [commandOf, hp, he, ha]
                simp] at h
              cases h
          | true =>
              rw [show commandOf g (.setAttrs id us) =
                  some ⟨.change, id, some (prevOf c.attrs (changedPairs c.attrs us)),
                    some (changedPairs c.attrs us), none⟩ by
                simp only [commandOf, hp, he, ha]
                simp] at h
              exact ⟨c, rfl, he, ha, (Option.some.inj h).symm⟩

theorem wfGraph_applyOpG (g : SceneGraph) (op : GraphOp)
    (hwf : wfGraph g) (hop : wfOp op) : wfGraph (applyOpG g op) := by
  obtain ⟨hnd, hattrs⟩ := hwf
  cases op with
  | insert c =>
      cases hp : getCell g c.id with
      | some d =>
          rw [applyOpG_insert_present g c (by rw [hp]; rfl)]
          exact ⟨hnd, hattrs⟩
      | none =>
          rw [applyOpG_insert_absent g c hp]
          constructor
          · rw [List.map_append, List.nodup_append]
            refine ⟨hnd, by simp, ?_⟩
            intro x hx hxc
            simp only [List.map_cons, List.map_nil, List.mem_singleton] at hxc
            subst hxc
            have hsome : (getCell g c.id).isSome = true :=
              (getCell_isSome_iff g c.id).mpr hx
            rw [hp] at hsome
            exact absurd hsome (by simp)
          · intro d hd
            rcases List.mem_append.mp hd with h | h
            · exact hattrs d h
            · rw [List.mem_singleton] at h
              subst h
              exact hop
  | removeById id =>
      cases hp : (getCell g id).isSome with
      | false =>
          rw [applyOpG_remove_absent g id (by
            cases hg : getCell g id
            · rfl
            · rw [hg] at hp; cases hp)]
          exact ⟨hnd, hattrs⟩
      | true =>
          rw [applyOpG_remove_present g id hp]
          constructor
          · exact (((List.filter_sublist g).map Cell.id)).nodup hnd
          · intro d hd
            exact hattrs d (List.mem_of_mem_filter hd)
  | setAttrs id us =>
      cases hc : getCell g id with
      | none =>
          rw [applyOpG_set_absent g id us hc]
          exact ⟨hnd, hattrs⟩
      | some c =>
          cases he : (changedPairs c.attrs us).isEmpty with
          | true =>
              rw [applyOpG_set_unchanged g id us c hc he]
              exact ⟨hnd, hattrs⟩
          | false =>
              rw [applyOpG_set_changed g id us c hc he]
              constructor
              · rw [keys_map_preserve g _ (fun d => by split <;> rfl)]
                exact hnd
              · intro d hd
                obtain ⟨d0, hd0, hfd⟩ := List.mem_map.mp hd
                subst hfd
                split
                · exact nodupKeys_cellSet d0.attrs us (hattrs d0 hd0)
                · exact hattrs d0 hd0

theorem wfGraph_perm (g g' : SceneGraph) (hp : g.Perm g') (hwf : wfGraph g) :
    wfGraph g' :=
  ⟨(hp.map Cell.id).nodup hwf.1, fun c hc => hwf.2 c (hp.mem_iff.mpr hc)⟩

theorem isEmpty_false_of_mem {α : Type _} (l : List α) (a : α) (h : a ∈ l) :
    l.isEmpty = false := by
  cases l
  · simp at h
  · rfl

theorem cons_filter_perm (id : String) :
    ∀ (g : SceneGraph) (c0 : Cell), (g.map Cell.id).Nodup →
      getCell g id = some c0 →
      (c0 :: g.filter (fun d => !(d.id == id))).Perm g := by
  intro g
  induction g with
  | nil =>
      intro c0 _ hc
      unfold getCell at hc
      cases hc
  | cons h t ih =>
      intro c0 hnd hc
      rw [List.map_cons, List.nodup_cons] at hnd
      by_cases hh : h.id = id
      · have hc0 : c0 = h := by
          unfold getCell at hc
          rw [List.find?_cons_of_pos t (by simpa using hh)] at hc
          exact (Option.some.inj hc).symm
        subst hc0
        rw [List.filter_cons_of_neg (by simpa using hh)]
        have hfil : t.filter (fun d => !(d.id == id)) = t := by
          rw [List.filter_eq_self]
          intro d hd
          have hdne : ¬ (d.id = id) := by
            intro he
            exact hnd.1 (by rw [hh, ← he]; exact List.mem_map.mpr ⟨d, hd, rfl⟩)
          simpa using hdne
        rw [hfil]
      · have hc' : getCell t id = some c0 := by
          unfold getCell at hc ⊢
          rwa [List.find?_cons_of_neg t (by simpa using hh)] at hc
        rw [List.filter_cons_of_pos (by simpa using hh)]
        exact ((List.Perm.swap h c0 _).trans
          ((ih c0 hnd.2 hc').cons h)).symm.symm

theorem filter_append_singleton_perm (g : SceneGraph) (id : String) (c0 : Cell)
    (hnd : (g.map Cell.id).Nodup) (hc : getCell g id = some c0) :
    (g.filter (fun d => !(d.id == id)) ++ [c0]).Perm g :=
  (List.perm_append_singleton c0 _).trans (cons_filter_perm id g c0 hnd hc)

theorem reverseApplyG_change_eq (id : String) (prev : AttrMap) (ns : Option AttrMap)
    (cj : Option Cell) (g' : SceneGraph) (h : (getCell g' id).isSome = true) :
    reverseApplyG ⟨.change, id, some prev, ns, cj⟩ g' =
      applyOpG g' (.setAttrs id prev) := by
  obtain ⟨c', hc'⟩ := Option.isSome_iff_exists.mp h
  unfold reverseApplyG
  rw [hc']

/-- The heart of the round-trip property: reversing the command recorded
for a single raw operation undoes that operation's effect on the graph,
up to the position of a re-inserted cell in the collection. -/
theorem reverse_roundtrip (g : SceneGraph) (op : GraphOp) (cmd : Command)
    (hwf : wfGraph g) (hop : wfOp op) (hc : commandOf g op = some cmd) :
    (reverseApplyG cmd (applyOpG g op)).Perm g := by
  cases op with
  | insert c =>
      obtain ⟨hab, rfl⟩ := commandOf_insert_inv g c cmd hc
      rw [applyOpG_insert_absent g c hab]
      show (applyOpG (g ++ [c]) (.removeById c.id)).Perm g
      have hsome : (getCell (g ++ [c]) c.id).isSome = true := by
        rw [getCell_isSome_iff, List.map_append]
        simp
      rw [applyOpG_remove_present _ _ hsome, List.filter_append]
      have h1 : g.filter (fun d => !(d.id == c.id)) = g := by
        rw [List.filter_eq_self]
        intro d hd
        have := (getCell_eq_none_iff g c.id).mp hab d hd
        simpa using this
      have h2 : ([c].filter (fun d => !(d.id == c.id))) = [] := by simp
      rw [h1, h2, List.append_nil]
  | removeById id =>
      obtain ⟨c0, hsome, rfl⟩ := commandOf_remove_inv g id cmd hc
      rw [applyOpG_remove_present g id (by rw [hsome]; rfl)]
      show (applyOpG (g.filter (fun d => !(d.id == id))) (.insert c0)).Perm g
      have hid : c0.id = id := (getCell_mem g id c0 hsome).2
      have habs : getCell (g.filter (fun d => !(d.id == id))) c0.id = none := by
        rw [getCell_eq_none_iff]
        intro d hd
        have hdne := (List.mem_filter.mp hd).2
        rw [hid]
        simpa using hdne
      rw [applyOpG_insert_absent _ _ habs]
      exact filter_append_singleton_perm g id c0 hwf.1 hsome
  | setAttrs id us =>
      obtain ⟨c0, hsome, hne, hall, rfl⟩ := commandOf_set_inv g id us cmd hc
      have hmem0 : c0 ∈ g := (getCell_mem g id c0 hsome).1
      have hid0 : c0.id = id := (getCell_mem g id c0 hsome).2
      have hpres : ∀ kv ∈ changedPairs c0.attrs us,
          (lookupAttr c0.attrs kv.fst).isSome = true := by
        intro kv hkv
        exact List.all_eq_true.mp hall kv hkv
      have hpres' : ∀ kv ∈ us, (lookupAttr c0.attrs kv.fst).isSome = true :=
        changedPairs_pres_of_all c0.attrs us hpres
      have hnda : nodupKeys c0.attrs := hwf.2 c0 hmem0
      rw [applyOpG_set_changed g id us c0 hsome hne]
      have hidf : ∀ d : Cell,
          ((fun d => if d.id == id then (⟨d.id, d.kind, cellSet d.attrs us⟩ : Cell) else d) d).id
            = d.id := by
        intro d
        dsimp only
        split <;> rfl
      have hc1 : getCell
          (g.map (fun d => if d.id == id then ⟨d.id, d.kind, cellSet d.attrs us⟩ else d)) id =
          some ⟨c0.id, c0.kind, cellSet c0.attrs us⟩ := by
        rw [getCell_map_preserve g id _ hidf, hsome]
        show some (if c0.id == id then (⟨c0.id, c0.kind, cellSet c0.attrs us⟩ : Cell) else c0) = _
        rw [if_pos (by simpa using hid0)]
      rw [reverseApplyG_change_eq id _ _ _ _ (by rw [hc1]; rfl)]
      -- the restore map really changes the target cell back
      obtain ⟨kv0, hkv0⟩ : ∃ kv0, kv0 ∈ changedPairs c0.attrs us := by
        cases hch : changedPairs c0.attrs us with
        | nil => rw [hch] at hne; simp at hne
        | cons kv0 rest => exact ⟨kv0, List.mem_cons_self kv0 rest⟩
      obtain ⟨vold, hvold⟩ := Option.isSome_iff_exists.mp (hpres kv0 hkv0)
      have hkv0ch := (mem_changedPairs_iff c0.attrs us kv0).mp hkv0
      have hvne : ¬ (vold = kv0.snd) := by
        intro he
        exact hkv0ch.2 (by rw [hvold, he])
      have hlookupnew : lookupAttr (cellSet c0.attrs us) kv0.fst = some kv0.snd :=
        lookupAttr_cellSet_mem c0.attrs us kv0.fst kv0.snd hop
          (lookupAttr_of_mem_nodup us kv0 hop hkv0ch.1) hpres'
      have hprevmem : (kv0.fst, vold) ∈ prevOf c0.attrs (changedPairs c0.attrs us) := by
        unfold prevOf
        refine List.mem_map.mpr ⟨kv0, hkv0, ?_⟩
        rw [hvold]
        rfl
      have hne2 : (changedPairs (cellSet c0.attrs us)
          (prevOf c0.attrs (changedPairs c0.attrs us))).isEmpty = false := by
        apply isEmpty_false_of_mem _ (kv0.fst, vold)
        refine (mem_changedPairs_iff _ _ _).mpr ⟨hprevmem, ?_⟩
        intro he
        rw [hlookupnew] at he
        exact hvne (Option.some.inj he).symm
      rw [applyOpG_set_changed _ id _ ⟨c0.id, c0.kind, cellSet c0.attrs us⟩ hc1 hne2,
        List.map_map]
      have hfix : ∀ d ∈ g,
          ((fun d => if d.id == id then
              (⟨d.id, d.kind, cellSet d.attrs
                (prevOf c0.attrs (changedPairs c0.attrs us))⟩ : Cell) else d) ∘
           (fun d => if d.id == id then
              (⟨d.id, d.kind, cellSet d.attrs us⟩ : Cell) else d)) d = d := by
        intro d hd
        by_cases hdid : d.id = id
        · have hd0 : d = c0 := by
            have h1 := getCell_of_mem_nodup g d hwf.1 hd
            rw [hdid, hsome] at h1
            exact (Option.some.inj h1).symm
          subst hd0
          simp only [Function.comp]
          rw [if_pos (show (d.id == id) = true by simpa using hdid)]
          rw [if_pos
            (show ((⟨d.id, d.kind, cellSet d.attrs us⟩ : Cell).id == id) = true by
              simpa using hdid)]
          rw [cellSet_roundtrip d.attrs us hnda hop hpres]
        · simp only [Function.comp]
          rw [if_neg (show ¬ ((d.id == id) = true) by simpa using hdid)]
          rw [if_neg (show ¬ ((d.id == id) = true) by simpa using hdid)]
      rw [List.map_congr_left hfix]
      have hmapid : g.map (fun d : Cell => d) = g := by simp
      rw [hmapid]

theorem getCell_eq_none_of_isSome_false (g : SceneGraph) (id : String)
    (h : (getCell g id).isSome = false) : getCell g id = none := by
  cases hg : getCell g id with
  | none => rfl
  | some c => rw [hg] at h; cases h

theorem reverseApplyG_change_none_cell (cid : String) (prev : Option AttrMap)
    (ns : Option AttrMap) (cj : Option Cell) (g : SceneGraph)
    (h : getCell g cid = none) :
    reverseApplyG ⟨.change, cid, prev, ns, cj⟩ g = g := by
  cases prev <;> simp [reverseApplyG, h, applyOpG]

theorem reverseApplyG_change_none_prev (cid : String) (ns : Option AttrMap)
    (cj : Option Cell) (g : SceneGraph) :
    reverseApplyG ⟨.change, cid, none, ns, cj⟩ g = g := by
  cases hcg : getCell g cid <;> simp [reverseApplyG, hcg]

/-- `applyOpG` is congruent with respect to permutation of the cell
collection (on graphs with unique ids). -/
theorem applyOpG_perm (g g' : SceneGraph) (op : GraphOp)
    (hp : g.Perm g') (hnd : (g.map Cell.id).Nodup) :
    (applyOpG g op).Perm (applyOpG g' op) := by
  cases op with
  | insert c =>
      have hsame := getCell_isSome_perm g g' c.id hp
      cases hs : (getCell g c.id).isSome with
      | true =>
          rw [applyOpG_insert_present g c hs,
            applyOpG_insert_present g' c (by rw [← hsame]; exact hs)]
          exact hp
      | false =>
          rw [applyOpG_insert_absent g c (getCell_eq_none_of_isSome_false g c.id hs),
            applyOpG_insert_absent g' c
              (getCell_eq_none_of_isSome_false g' c.id (by rw [← hsame]; exact hs))]
          exact hp.append_right [c]
  | removeById id =>
      have hsame := getCell_isSome_perm g g' id hp
      cases hs : (getCell g id).isSome with
      | true =>
          rw [applyOpG_remove_present g id hs,
            applyOpG_remove_present g' id (by rw [← hsame]; exact hs)]
          exact hp.filter _
      | false =>
          rw [applyOpG_remove_absent g id (getCell_eq_none_of_isSome_false g id hs),
            applyOpG_remove_absent g' id
              (getCell_eq_none_of_isSome_false g' id (by rw [← hsame]; exact hs))]
          exact hp
  | setAttrs id us =>
      have hsame := getCell_perm g g' id hp hnd
      cases hs : getCell g id with
      | none =>
          rw [applyOpG_set_absent g id us hs,
            applyOpG_set_absent g' id us (by rw [← hsame]; exact hs)]
          exact hp
      | some c =>
          cases he : (changedPairs c.attrs us).isEmpty with
          | true =>
              rw [applyOpG_set_unchanged g id us c hs he,
                applyOpG_set_unchanged g' id us c (by rw [← hsame]; exact hs) he]
              exact hp
          | false =>
              rw [applyOpG_set_changed g id us c hs he,
                applyOpG_set_changed g' id us c (by rw [← hsame]; exact hs) he]
              exact hp.map _

/-- `reverseApplyG` is congruent with respect to permutation of the cell
collection (on graphs with unique ids). -/
theorem reverseApplyG_perm (cmd : Command) (g g' : SceneGraph)
    (hp : g.Perm g') (hnd : (g.map Cell.id).Nodup) :
    (reverseApplyG cmd g).Perm (reverseApplyG cmd g') := by
  rcases cmd with ⟨ty, cid, prev, ns, cj⟩
  cases ty with
  | add => exact applyOpG_perm g g' (.removeById cid) hp hnd
  | remove =>
      cases cj with
      | none => simpa [reverseApplyG] using hp
      | some c =>
          show (applyOpG g (.insert c)).Perm (applyOpG g' (.insert c))
          exact applyOpG_perm g g' (.insert c) hp hnd
  | change =>
      cases prev with
      | none =>
          rw [reverseApplyG_change_none_prev cid ns cj g,
            reverseApplyG_change_none_prev cid ns cj g']
          exact hp
      | some p =>
          have hsame := getCell_perm g g' cid hp hnd
          cases hs : getCell g cid with
          | none =>
              rw [reverseApplyG_change_none_cell cid (some p) ns cj g hs,
                reverseApplyG_change_none_cell cid (some p) ns cj g'
                  (by rw [← hsame]; exact hs)]
              exact hp
          | some c =>
              rw [reverseApplyG_change_eq cid p ns cj g (by rw [hs]; rfl),
                reverseApplyG_change_eq cid p ns cj g' (by rw [← hsame, hs]; rfl)]
              exact applyOpG_perm g g' (.setAttrs cid p) hp hnd

/-- Permutation-related graphs with unique ids have the same serialized
state. -/
theorem sameSerializedState_of_perm (g g' : SceneGraph)
    (hp : g.Perm g') (hnd : (g'.map Cell.id).Nodup) :
    sameSerializedState g g' = true := by
  unfold sameSerializedState
  rw [Bool.and_eq_true, List.all_eq_true, List.all_eq_true]
  constructor
  · intro c hc
    rw [beq_iff_eq]
    exact getCell_of_mem_nodup g' c hnd (hp.mem_iff.mp hc)
  · intro c hc
    rw [beq_iff_eq]
    have hndg : (g.map Cell.id).Nodup := ((hp.map Cell.id).symm).nodup hnd
    exact getCell_of_mem_nodup g c hndg (hp.mem_iff.mpr hc)

/-- Well-formed operation list. -/
def wfOps (ops : List GraphOp) : Prop := ∀ op ∈ ops, wfOp op

instance (ops : List GraphOp) : Decidable (wfOps ops) := by
  unfold wfOps; infer_instance

/-! ### The round trip of a whole recorded sequence (claim C1) -/

theorem trimPush_eq_cons_take (b : BatchCommand) (S : List BatchCommand) :
    ∃ k0, trimPush b S = b :: S.take k0 ∧
      min S.length (maxStackSize - 1) ≤ k0 ∧ k0 ≤ S.length := by
  have hms : maxStackSize = 100 := rfl
  by_cases hS : maxStackSize < S.length + 1
  · refine ⟨S.length - 1, ?_, by omega, by omega⟩
    simp only [trimPush]
    rw [if_pos (by simp only [List.length_cons]; omega)]
    cases S with
    | nil =>
        rw [hms] at hS
        simp only [List.length_nil] at hS
        exact absurd hS (by decide)
    | cons s t =>
        show (b :: s :: t).dropLast = b :: List.take ((s :: t).length - 1) (s :: t)
        rw [← List.dropLast_eq_take]
        rfl
  · refine ⟨S.length, ?_, by omega, le_refl _⟩
    simp only [trimPush]
    rw [if_neg (by simp only [List.length_cons]; omega), List.take_length]

/-- Pushing at most `maxStackSize` batches leaves exactly those batches,
newest first, on top of a surviving prefix of the old stack: the trims
only ever evict entries of the old stack. -/
theorem pushMany_spec :
    ∀ (bs : List BatchCommand) (S : List BatchCommand),
      bs.length ≤ maxStackSize →
      ∃ k, pushMany S bs = bs.reverse ++ S.take k ∧
        min S.length (maxStackSize - bs.length) ≤ k := by
  intro bs
  induction bs with
  | nil =>
      intro S _
      refine ⟨S.length, by simp [pushMany], ?_⟩
      have hms : maxStackSize = 100 := rfl
      omega
  | cons b rest ih =>
      intro S hlen
      have hms : maxStackSize = 100 := rfl
      obtain ⟨k0, heq0, hk0min, hk0le⟩ := trimPush_eq_cons_take b S
      have hstep : pushMany S (b :: rest) = pushMany (trimPush b S) rest := rfl
      rw [hstep, heq0]
      simp only [List.length_cons] at hlen
      obtain ⟨k1, heq1, hk1min⟩ := ih (b :: S.take k0) (by omega)
      have hlentake : (S.take k0).length = k0 := by
        rw [List.length_take]
        omega
      have hk1pos : 1 ≤ k1 := by
        simp only [List.length_cons, hlentake] at hk1min
        omega
      cases k1 with
      | zero => omega
      | succ k1' =>
          rw [heq1, List.take_succ_cons, List.take_take]
          refine ⟨min k1' k0, ?_, ?_⟩
          · rw [List.reverse_cons, List.append_assoc, List.singleton_append]
          · simp only [List.length_cons, hlentake] at hk1min ⊢
            omega

theorem commandsOf_length (g : SceneGraph) (ops : List GraphOp)
    (h : allRecordedG g ops = true) : (commandsOf g ops).length = ops.length := by
  induction ops generalizing g with
  | nil => rfl
  | cons op rest ih =>
      obtain ⟨hc, hrest⟩ : (commandOf g op).isSome = true ∧
          allRecordedG (applyOpG g op) rest = true := by
        simpa [allRecordedG, Bool.and_eq_true] using h
      obtain ⟨cmd, hcmd⟩ := Option.isSome_iff_exists.mp hc
      simp only [commandsOf, hcmd, List.length_cons]
      rw [ih (applyOpG g op) hrest]

theorem wfGraph_applyOps (g : SceneGraph) (ops : List GraphOp)
    (hwf : wfGraph g) (hops : wfOps ops) : wfGraph (applyOps g ops) := by
  induction ops generalizing g with
  | nil => exact hwf
  | cons op rest ih =>
      exact ih (applyOpG g op)
        (wfGraph_applyOpG g op hwf (hops op (List.mem_cons_self op rest)))
        (fun o ho => hops o (List.mem_cons_of_mem op ho))

/-- Characterization of a run of recorded, unbatched mutations: the graph
accumulates the operations' effects and the undo stack receives one
singleton batch per recorded command, with trimming. -/
theorem runMuts_spec :
    ∀ (ops : List GraphOp) (s : MState),
      s.currentBatch = none → s.isExecuting = false →
      allRecordedG s.graph ops = true →
      (ops.foldl mutateGraph s).graph = applyOps s.graph ops ∧
      (ops.foldl mutateGraph s).undoStack =
        pushMany s.undoStack
          ((commandsOf s.graph ops).map (fun c => ⟨[c], none⟩)) ∧
      (ops.foldl mutateGraph s).currentBatch = none ∧
      (ops.foldl mutateGraph s).isExecuting = false := by
  intro ops
  induction ops with
  | nil =>
      intro s h1 h2 _
      exact ⟨rfl, rfl, h1, h2⟩
  | cons op rest ih =>
      intro s h1 h2 hrec
      obtain ⟨hc, hrest⟩ : (commandOf s.graph op).isSome = true ∧
          allRecordedG (applyOpG s.graph op) rest = true := by
        simpa [allRecordedG, Bool.and_eq_true] using hrec
      obtain ⟨cmd, hcmd⟩ := Option.isSome_iff_exists.mp hc
      rw [List.foldl_cons, mutateGraph_of_recorded s op cmd h2 hcmd,
        pushCommand_of_no_batch { s with graph := applyOpG s.graph op } cmd h1]
      obtain ⟨ihg, ihu, ihc, ihe⟩ := ih
        { s with
          graph := applyOpG s.graph op,
          undoStack := trimPush ⟨[cmd], none⟩ s.undoStack,
          redoStack := [],
          notifyLog := (trimPush ⟨[cmd], none⟩ s.undoStack, []) :: s.notifyLog }
        h1 h2 hrest
      refine ⟨ihg, ?_, ihc, ihe⟩
      rw [ihu]
      have hcs : commandsOf s.graph (op :: rest) =
          cmd :: commandsOf (applyOpG s.graph op) rest := by
        simp [commandsOf, hcmd]
      rw [hcs]
      rfl

/-- Characterization of a run of `undo()` calls over a stack of singleton
batches: the commands are reversed newest-pushed first and the stack
below survives untouched. -/
theorem undoN_singletons :
    ∀ (cs : List Command) (tail : List BatchCommand) (s : MState),
      s.undoStack = cs.map (fun c => ⟨[c], none⟩) ++ tail →
      (undoN cs.length s).graph =
        cs.foldl (fun g c => reverseApplyG c g) s.graph ∧
      (undoN cs.length s).undoStack = tail := by
  intro cs
  induction cs with
  | nil =>
      intro tail s h
      exact ⟨rfl, by simpa using h⟩
  | cons c rest ih =>
      intro tail s h
      have hu := undo_eq s ⟨[c], none⟩ (rest.map (fun c => ⟨[c], none⟩) ++ tail)
        (by simpa using h)
      have hstep : undoN (c :: rest).length s = undoN rest.length (undo s) := rfl
      obtain ⟨ihg, ihu⟩ := ih tail (undo s) (by rw [hu])
      constructor
      · rw [hstep, ihg, hu]
        rfl
      · rw [hstep, ihu]

/-- Reversing the recorded commands of a fully recorded sequence, newest
first, takes the final graph back to a permutation of the original. -/
theorem seq_roundtrip :
    ∀ (ops : List GraphOp) (g : SceneGraph),
      wfGraph g → wfOps ops → allRecordedG g ops = true →
      ((commandsOf g ops).reverse.foldl (fun h c => reverseApplyG c h)
        (applyOps g ops)).Perm g := by
  intro ops
  induction ops with
  | nil =>
      intro g _ _ _
      exact List.Perm.refl g
  | cons op rest ih =>
      intro g hwf hops hrec
      obtain ⟨hc, hrest⟩ : (commandOf g op).isSome = true ∧
          allRecordedG (applyOpG g op) rest = true := by
        simpa [allRecordedG, Bool.and_eq_true] using hrec
      obtain ⟨cmd, hcmd⟩ := Option.isSome_iff_exists.mp hc
      have hcs : commandsOf g (op :: rest) =
          cmd :: commandsOf (applyOpG g op) rest := by
        simp [commandsOf, hcmd]
      rw [hcs, List.reverse_cons, List.foldl_append]
      have hwf1 : wfGraph (applyOpG g op) :=
        wfGraph_applyOpG g op hwf (hops op (List.mem_cons_self op rest))
      have hinner := ih (applyOpG g op) hwf1
        (fun o ho => hops o (List.mem_cons_of_mem op ho)) hrest
      have hcong := reverseApplyG_perm cmd _ _ hinner
        (wfGraph_perm _ _ hinner.symm hwf1).1
      exact hcong.trans (reverse_roundtrip g op cmd hwf
        (hops op (List.mem_cons_self op rest)) hcmd)

set_option maxRecDepth 10000 in
/-- C1 counterexample: a sequence of `maxStackSize + 1` recorded
unbatched creations from the empty graph, followed by as many `undo()`
calls, does not restore the serialized state — the oldest batch was
evicted by the cap, so the first created cell survives. -/
theorem undo_roundtrip_cex :
    allRecordedG [] capRawOps = true ∧
    capRawOps.length = maxStackSize + 1 ∧
    sameSerializedState
      (runOps (initState [])
        (capRawOps.map PublicOp.mutate ++
          List.replicate capRawOps.length PublicOp.doUndo)).graph [] = false := by
  refine ⟨by decide, by decide, by decide⟩

/-- C1 (amended): for every sequence of at most `maxStackSize` (100)
recorded unbatched mutations applied to a well-formed scene graph from
any quiescent manager state, calling `undo()` once per mutation restores
the scene graph's serialized state exactly (cell by cell, attribute
payloads bit for bit).  Sequences longer than the cap lose their oldest
entries to eviction and cannot be fully undone. -/
theorem undo_roundtrip_upto_cap (s : MState) (ops : List GraphOp)
    (hbatch : s.currentBatch = none) (hexec : s.isExecuting = false)
    (hwf : wfGraph s.graph) (hops : wfOps ops)
    (hrec : allRecordedG s.graph ops = true)
    (hlen : ops.length ≤ maxStackSize) :
    sameSerializedState
      (runOps s (ops.map PublicOp.mutate ++
        List.replicate ops.length PublicOp.doUndo)).graph s.graph = true := by
  have hrepl : ∀ (n : Nat) (st : MState),
      (List.replicate n PublicOp.doUndo).foldl runOp st = undoN n st := by
    intro n
    induction n with
    | zero => intro st; rfl
    | succ m ihn =>
        intro st
        rw [List.replicate_succ, List.foldl_cons]
        exact ihn (undo st)
  have hsplit : runOps s (ops.map PublicOp.mutate ++
      List.replicate ops.length PublicOp.doUndo) =
      undoN ops.length (ops.foldl mutateGraph s) := by
    unfold runOps
    rw [List.foldl_append, hrepl]
    congr 1
    rw [List.foldl_map]
    rfl
  rw [hsplit]
  obtain ⟨hg, hu, _, _⟩ := runMuts_spec ops s hbatch hexec hrec
  have hbslen : ((commandsOf s.graph ops).map
      (fun c => (⟨[c], none⟩ : BatchCommand))).length ≤ maxStackSize := by
    rw [List.length_map, commandsOf_length _ _ hrec]
    exact hlen
  obtain ⟨k, hpm, _⟩ := pushMany_spec _ s.undoStack hbslen
  have hstack : (ops.foldl mutateGraph s).undoStack =
      ((commandsOf s.graph ops).reverse.map (fun c => ⟨[c], none⟩)) ++
        s.undoStack.take k := by
    rw [hu, hpm, List.map_reverse]
  have hcount : ops.length = (commandsOf s.graph ops).reverse.length := by
    rw [List.length_reverse, commandsOf_length _ _ hrec]
  obtain ⟨hfinalg, _⟩ := undoN_singletons
    ((commandsOf s.graph ops).reverse) (s.undoStack.take k)
    (ops.foldl mutateGraph s) hstack
  rw [hcount, hfinalg, hg]
  exact sameSerializedState_of_perm _ _
    (seq_roundtrip ops s.graph hwf hops hrec) hwf.1

theorem undo_roundtrip_upto_cap_witness :
    (let s : MState := initState [⟨"a", "node", [("x", JVal.num 0)]⟩]
     let ops : List GraphOp := [GraphOp.setAttrs "a" [("x", JVal.num 50)]]
     s.currentBatch = none ∧ s.isExecuting = false ∧ wfGraph s.graph ∧
     wfOps ops ∧ allRecordedG s.graph ops = true ∧ ops.length ≤ maxStackSize ∧
     sameSerializedState
       (runOps s (ops.map PublicOp.mutate ++
         List.replicate ops.length PublicOp.doUndo)).graph s.graph = true) :=
  ⟨rfl, rfl, by decide, by decide, by decide, by decide,
    undo_roundtrip_upto_cap _ _ rfl rfl (by decide) (by decide) (by decide)
      (by decide)⟩

end CommandManager

